import Mathlib

/-!
# A shallow embedding of the shell of `shell.c`

C strings are modelled as `List Char` (the characters before the terminating
NUL), a NULL pointer as `none`, and a NULL-terminated `char *args[]` array as a
list whose entries are `some token` or `none` (a slot overwritten with NULL).
Console output (`printf`, `perror`) is not part of the model; the system calls
made by the parent process are recorded as a trace of `Action`s.
-/

namespace Shell

/-- The constant `MAXLINE` of `shell.h`. -/
def MAXLINE : Nat := 80

/-- Membership of a character in the delimiter string handed to `strtok_r`. -/
def isDelim (delim : List Char) (c : Char) : Bool := delim.contains c

/-- The libc function `strtok_r(str, delim, &save)`, on the part of the buffer
that the scan has still to read (`str` on a first call, `*save` on a call with
`str == NULL`).  Leading delimiters are skipped; when nothing is left the
result is NULL and the save pointer rests on the terminator.  Otherwise the
token is the longest stretch without a delimiter; the delimiter that ends it,
if any, is overwritten with NUL and the save pointer moves just past it.
The result is the token and the text left at the save pointer. -/
def strtok_r (delim : List Char) (s : List Char) : Option (List Char) × List Char :=
  match s.dropWhile (isDelim delim) with
  | [] => (none, [])
  | c :: cs =>
    (some ((c :: cs).takeWhile (fun x => !isDelim delim x)),
     ((c :: cs).dropWhile (fun x => !isDelim delim x)).tail)

/-- The delimiter string of `tokenizeCommand`: space, tab, newline. -/
def tokenDelims : List Char := " \t\n".toList

/-- The `while (token != NULL && i < MAXLINE / 2)` loop of `tokenizeCommand`.
`args` holds the entries stored so far, so that `i = args.length`; `save` is
the text at `tokenPtr`.  The fuel bounds the number of iterations. -/
def tokenizeLoop : Nat → Option (List Char) → List Char → List (List Char) → List (List Char)
  | 0, _, _, args => args
  | _ + 1, none, _, args => args
  | fuel + 1, some token, save, args =>
    if args.length < MAXLINE / 2 then
      tokenizeLoop fuel (strtok_r tokenDelims save).1 (strtok_r tokenDelims save).2
        (if token ≠ "&".toList then args ++ [token] else args)
    else args

/-- The function `tokenizeCommand`: the entries of `args[]` before the NULL
that the function stores at `args[i]`.  Every iteration consumes at least one
character of the command, so `command.length + 1` iterations are never
exhausted. -/
def tokenizeCommand (command : List Char) : List (List Char) :=
  tokenizeLoop (command.length + 1) (strtok_r tokenDelims command).1
    (strtok_r tokenDelims command).2 []

/-! ## Redirection scan of `executeCommand` -/

/-- The local state of the redirection scan: the `args[]` array (a slot is
`none` once the scan has overwritten it with NULL) and the two path
variables. -/
structure Redirection where
  args : List (Option (List Char))
  input_file : Option (List Char)
  output_file : Option (List Char)
  deriving DecidableEq, Repr

/-- Reading `args[i]`.  The slot just past the stored entries is the NULL
terminator written by `tokenizeCommand`; the scan never reads further. -/
def argAt (args : List (Option (List Char))) (i : Nat) : Option (List Char) :=
  args.getD i none

/-- The loop `for (int i = 0; args[i] != NULL; i++)` of `executeCommand`,
started at index `i`.  The fuel bounds the number of iterations. -/
def redirectionLoop : Nat → Nat → Redirection → Redirection
  | 0, _, st => st
  | fuel + 1, i, st =>
    match argAt st.args i with
    | none => st
    | some a =>
      if a = "<".toList ∧ argAt st.args (i + 1) ≠ none then
        redirectionLoop fuel (i + 1)
          { args := st.args.set i none,
            input_file := argAt st.args (i + 1),
            output_file := st.output_file }
      else if a = ">".toList ∧ argAt st.args (i + 1) ≠ none then
        redirectionLoop fuel (i + 1)
          { args := st.args.set i none,
            input_file := st.input_file,
            output_file := argAt st.args (i + 1) }
      else redirectionLoop fuel (i + 1) st

/-- The redirection scan on a tokenized vector, from `input_file = NULL`,
`output_file = NULL` and index 0.  The loop makes one iteration per entry. -/
def resolveRedirection (args : List (List Char)) : Redirection :=
  redirectionLoop (args.length + 1) 0
    { args := args.map some, input_file := none, output_file := none }

/-- The argument vector that `execvp(args[0], args)` reads: the entries of
`args[]` before the first NULL. -/
def execArgv : List (Option (List Char)) → List (List Char)
  | some a :: rest => a :: execArgv rest
  | _ => []

/-! ## Pipe split of `executeCommand` -/

/-- The delimiter string of the pipe split. -/
def pipeDelims : List Char := "|".toList

/-- Outcome of the pipe split at the head of `executeCommand`: `Piped` when
`rightCommand != NULL`, with the texts at `leftCommand` and at `rightCommand`
after its leading spaces are skipped; `Single` otherwise, with the text then
found at `command`. -/
inductive Pipeline where
  | Single (command : List Char)
  | Piped (leftCommand rightCommand : List Char)
  deriving DecidableEq, Repr

/-- The two calls `strtok_r(command, "|", &tokenPtr)` and
`strtok_r(NULL, "|", &tokenPtr)` followed by `while (*rightCommand == ' ')
rightCommand++`.  In the `Single` case `command` still points at the start of
the buffer: when the first call found a token, the text read from there ends
where that token ends (at the NUL written over the following `|`, or at the end
of the text), so it is the skipped leading `|` characters and the token. -/
def splitPipeline (command : List Char) : Pipeline :=
  match strtok_r pipeDelims command with
  | (none, tokenPtr) =>
    match (strtok_r pipeDelims tokenPtr).1 with
    | some rightCommand => Pipeline.Piped [] (rightCommand.dropWhile (fun c => c = ' '))
    | none => Pipeline.Single command
  | (some leftCommand, tokenPtr) =>
    match (strtok_r pipeDelims tokenPtr).1 with
    | some rightCommand => Pipeline.Piped leftCommand (rightCommand.dropWhile (fun c => c = ' '))
    | none => Pipeline.Single (command.takeWhile (isDelim pipeDelims) ++ leftCommand)

/-! ## Process creation of `executeCommand` -/

/-- The two ends `pipefd[RD]`, `pipefd[WR]`. -/
inductive PipeEnd where
  | RD
  | WR
  deriving DecidableEq, Repr

/-- The process-id variables of `executeCommand`. -/
inductive Pid where
  | pid1
  | pid2
  | pid
  deriving DecidableEq, Repr

/-- What a forked child does, in order.  `openInput f` stands for
`open(f, O_RDONLY)`, `dup2(fd, STDIN_FILENO)`, `close(fd)` and `openOutput f`
for the same with `O_WRONLY | O_CREAT | O_TRUNC` onto standard output; a failing
`open` ends the child with `exit(1)`.  `execvp file argv` is the call
`execvp(args[0], args)`, the child exits with 1 when it returns. -/
inductive ChildStep where
  | close (e : PipeEnd)
  | dup2Stdout (e : PipeEnd)
  | dup2Stdin (e : PipeEnd)
  | openInput (f : List Char)
  | openOutput (f : List Char)
  | execvp (file : Option (List Char)) (argv : List (List Char))
  | exit (status : Nat)
  deriving DecidableEq, Repr

/-- System calls of the parent process. -/
inductive Action where
  | pipe
  | pipeFailed
  | fork (p : Pid) (child : List ChildStep)
  | forkFailed (p : Pid)
  | close (e : PipeEnd)
  | waitpid (p : Pid)
  | usleep (usec : Nat)
  deriving DecidableEq, Repr

/-- Whether `pipe()`, the first `fork()` and the second `fork()` of one call of
`executeCommand` succeed. -/
structure SysOutcome where
  pipeOk : Bool
  fork1Ok : Bool
  fork2Ok : Bool
  deriving DecidableEq, Repr

/-- The tail of a pipeline child: `tokenizeCommand`, `exit(1)` on an empty
vector, `execvp` otherwise. -/
def pipeChildExec (command : List Char) : List ChildStep :=
  match tokenizeCommand command with
  | [] => [ChildStep.exit 1]
  | a :: rest => [ChildStep.execvp (some a) (a :: rest)]

/-- The child of the non-piped path. -/
def singleChild (r : Redirection) : List ChildStep :=
  (match r.input_file with
    | some f => [ChildStep.openInput f]
    | none => []) ++
  (match r.output_file with
    | some f => [ChildStep.openOutput f]
    | none => []) ++
  [ChildStep.execvp (argAt r.args 0) (execArgv r.args)]

/-- The function `executeCommand`, as the trace of the parent's system
calls. -/
def executeCommand (sys : SysOutcome) (command : List Char) (should_wait : Bool) : List Action :=
  if command = "ascii".toList then []
  else
    match splitPipeline command with
    | Pipeline.Piped leftCommand rightCommand =>
      if !sys.pipeOk then [Action.pipeFailed]
      else if !sys.fork1Ok then [Action.pipe, Action.forkFailed Pid.pid1]
      else
        let child1 := [ChildStep.close PipeEnd.RD, ChildStep.dup2Stdout PipeEnd.WR,
          ChildStep.close PipeEnd.WR] ++ pipeChildExec leftCommand
        if !sys.fork2Ok then [Action.pipe, Action.fork Pid.pid1 child1, Action.forkFailed Pid.pid2]
        else
          let child2 := [ChildStep.close PipeEnd.WR, ChildStep.dup2Stdin PipeEnd.RD,
            ChildStep.close PipeEnd.RD] ++ pipeChildExec rightCommand
          [Action.pipe, Action.fork Pid.pid1 child1, Action.fork Pid.pid2 child2,
           Action.close PipeEnd.WR, Action.waitpid Pid.pid1,
           Action.close PipeEnd.RD, Action.waitpid Pid.pid2]
    | Pipeline.Single command1 =>
      match tokenizeCommand command1 with
      | [] => []
      | a :: rest =>
        if !sys.fork1Ok then [Action.forkFailed Pid.pid]
        else
          [Action.fork Pid.pid (singleChild (resolveRedirection (a :: rest)))] ++
          (if should_wait then [Action.waitpid Pid.pid] else [])

/-! ## `processLine` -/

/-- One entry of `commands[]` with its entry of `background_flags[]`. -/
structure Segment where
  text : List Char
  background : Bool
  deriving DecidableEq, Repr

/-- The test `c == ' ' || c == '\t'` used by the trimming loops. -/
def isBlank (c : Char) : Bool := c = ' ' || c = '\t'

/-- The loop `while (*cmd == ' ' || *cmd == '\t') cmd++`. -/
def trimLeading (cmd : List Char) : List Char := cmd.dropWhile isBlank

/-- The lines `end = cmd + strlen(cmd) - 1; while (end > cmd && ...) end--;
*(end + 1) = 0`: blanks are removed from the end, the first character is
never removed since the loop stops at `end == cmd`. -/
def trimTrailing : List Char → List Char
  | [] => []
  | c :: cs => c :: cs.rdropWhile isBlank

/-- The body of the segmenting loop for one piece `cmd` returned by
`strtok_r(..., ";", ...)`: the entries it appends to `commands[]` and
`background_flags[]`. -/
def pieceSegments (cmd0 : List Char) : List Segment :=
  let cmd := trimTrailing (trimLeading cmd0)
  if cmd ≠ [] then
    if '&' ∈ cmd then
      let ampersand := ((cmd.dropWhile (fun c => c ≠ '&')).tail).dropWhile isBlank
      { text := cmd.takeWhile (fun c => c ≠ '&'), background := true } ::
        (if ampersand ≠ [] then [{ text := ampersand, background := false }] else [])
    else [{ text := cmd, background := false }]
  else []

/-- The delimiter string of the statement split. -/
def stmtDelims : List Char := ";".toList

/-- The loop `while (cmd != NULL && cmd_count < MAXLINE)` of `processLine`;
`segs` holds the entries stored so far, so that `cmd_count = segs.length`. -/
def segmentLoop : Nat → Option (List Char) → List Char → List Segment → List Segment
  | 0, _, _, segs => segs
  | _ + 1, none, _, segs => segs
  | fuel + 1, some cmd, save, segs =>
    if segs.length < MAXLINE then
      segmentLoop fuel (strtok_r stmtDelims save).1 (strtok_r stmtDelims save).2
        (segs ++ pieceSegments cmd)
    else segs

/-- The segmentation part of `processLine` on the working line (the copy
`command_copy`). -/
def segmentLine (line : List Char) : List Segment :=
  segmentLoop (line.length + 1) (strtok_r stmtDelims line).1 (strtok_r stmtDelims line).2 []

/-- The loop `for (i = 0; i < cmd_count; i++)` that executes the commands;
`sys i` gives the outcome of the system calls made for `commands[i]`. -/
def executeAll (sys : Nat → SysOutcome) : Nat → List Segment → List Action
  | _, [] => []
  | i, seg :: rest =>
    executeCommand (sys i) seg.text (!seg.background) ++
      (if seg.background then [Action.usleep 10000] else []) ++
      executeAll sys (i + 1) rest

/-- What one call of `processLine` leaves behind: the global `lastCommand`,
the segments stored in `commands[]` and `background_flags[]`, and the trace of
system calls. -/
structure LineResult where
  lastCommand : List Char
  commands : List Segment
  trace : List Action
  deriving DecidableEq, Repr

/-- The function `processLine`, from the value of the global `lastCommand`.
The global is a `char[MAXLINE]`; `strcpy` into it is defined for lines
shorter than `MAXLINE` characters, and the model stores a line of any
length. -/
def processLine (sys : Nat → SysOutcome) (lastCommand line : List Char) : LineResult :=
  if line = "!!".toList then
    if lastCommand.length = 0 then
      { lastCommand := lastCommand, commands := [], trace := [] }
    else
      { lastCommand := lastCommand,
        commands := segmentLine lastCommand,
        trace := executeAll sys 0 (segmentLine lastCommand) }
  else
    { lastCommand := line,
      commands := segmentLine line,
      trace := executeAll sys 0 (segmentLine line) }

/-! ## Definitions used to state the theorems -/

/-- The maximal runs of characters that are not delimiters, in order: the text
is cut at every delimiter and the empty pieces are dropped.  This follows the
wording of the specification and is compared with `strtok_r` below. -/
def maximalRuns (delim : List Char) (s : List Char) : List (List Char) :=
  (s.splitOnP (isDelim delim)).filter (fun t => t ≠ [])

/-- The `&`-free maximal runs: what `tokenizeCommand` is to store. -/
def expectedTokens (s : List Char) : List (List Char) :=
  (maximalRuns tokenDelims s).filter (fun t => t ≠ "&".toList)

/-- The scan of `executeCommand` read off the list of tokens still to visit:
an operator that has a token after it is overwritten with NULL and that token
becomes the path, any other token is kept. -/
def scanArgs : List (List Char) → Option (List Char) → Option (List Char) → Redirection
  | [], inp, out => { args := [], input_file := inp, output_file := out }
  | a :: rest, inp, out =>
    if a = "<".toList ∧ rest ≠ [] then
      { scanArgs rest rest.head? out with args := none :: (scanArgs rest rest.head? out).args }
    else if a = ">".toList ∧ rest ≠ [] then
      { scanArgs rest inp rest.head? with args := none :: (scanArgs rest inp rest.head?).args }
    else
      { scanArgs rest inp out with args := some a :: (scanArgs rest inp out).args }

/-- The segmenting loop read off the list of pieces still to visit: a piece is
visited while fewer than `MAXLINE` segments are stored. -/
def appendPieces : List (List Char) → List Segment → List Segment
  | [], segs => segs
  | piece :: rest, segs =>
    if segs.length < MAXLINE then appendPieces rest (segs ++ pieceSegments piece) else segs

/-- Whether a text begins with a space or a tab. -/
def startsBlank (t : List Char) : Bool :=
  match t.head? with
  | some c => isBlank c
  | none => false

/-- Whether a text ends with a space or a tab. -/
def endsBlank (t : List Char) : Bool :=
  match t.getLast? with
  | some c => isBlank c
  | none => false

/-- A text without its leading and its trailing spaces and tabs, in the
wording of the specification. -/
def trimBlanks (t : List Char) : List Char :=
  (t.dropWhile isBlank).rdropWhile isBlank

/-- The pieces of a line in the wording of the specification: the line is
split at every `;`, each piece is trimmed, and the pieces that are empty after
trimming are discarded. -/
def statementPieces (line : List Char) : List (List Char) :=
  ((line.splitOnP (fun c => c = ';')).map trimBlanks).filter (fun t => t ≠ [])

/-- The indices of `args[]` that the redirection scan touches, in order, for
the same loop as `redirectionLoop`: every iteration reads `args[i]` (loop test
and `strcmp`), an iteration at a `<` or `>` reads `args[i + 1]` as well, and
the store `args[i] = NULL` is at an index already read. -/
def redirectionAccesses : Nat → Nat → Redirection → List Nat
  | 0, _, _ => []
  | fuel + 1, i, st =>
    match argAt st.args i with
    | none => [i]
    | some a =>
      if a = "<".toList ∧ argAt st.args (i + 1) ≠ none then
        i :: (i + 1) :: redirectionAccesses fuel (i + 1)
          { args := st.args.set i none,
            input_file := argAt st.args (i + 1),
            output_file := st.output_file }
      else if a = ">".toList ∧ argAt st.args (i + 1) ≠ none then
        i :: (i + 1) :: redirectionAccesses fuel (i + 1)
          { args := st.args.set i none,
            input_file := st.input_file,
            output_file := argAt st.args (i + 1) }
      else if a = "<".toList ∨ a = ">".toList then
        i :: (i + 1) :: redirectionAccesses fuel (i + 1) st
      else i :: redirectionAccesses fuel (i + 1) st

/-- Whether an action of the parent is a `fork()` that created a child. -/
def Action.isFork : Action → Bool
  | Action.fork _ _ => true
  | _ => false

/-- Whether an action of the parent is a `waitpid()`. -/
def Action.isWaitpid : Action → Bool
  | Action.waitpid _ => true
  | _ => false

/-- The history slot after a sequence of calls of `processLine`, each with its
own outcomes of the system calls. -/
def slotAfter (slot : List Char) : List ((Nat → SysOutcome) × List Char) → List Char
  | [] => slot
  | call :: rest => slotAfter (processLine call.1 slot call.2).lastCommand rest

/-! # Theorems -/

/-! ## `strtok_r` against maximal runs -/

theorem maximalRuns_nil (delim : List Char) : maximalRuns delim [] = [] := by
  simp [maximalRuns, List.splitOnP_nil]

theorem maximalRuns_cons_delim (delim : List Char) (d : Char) (s : List Char)
    (hd : isDelim delim d = true) : maximalRuns delim (d :: s) = maximalRuns delim s := by
  simp [maximalRuns, List.splitOnP_cons, hd]

theorem maximalRuns_dropWhile (delim : List Char) (s : List Char) :
    maximalRuns delim (s.dropWhile (isDelim delim)) = maximalRuns delim s := by
  induction s with
  | nil => rfl
  | cons c cs ih =>
    by_cases hc : isDelim delim c = true
    · rw [List.dropWhile_cons_of_pos hc, ih, maximalRuns_cons_delim delim c cs hc]
    · rw [List.dropWhile_cons_of_neg hc]

theorem maximalRuns_token (delim : List Char) (s : List Char) :
    (∀ x ∈ s.takeWhile (fun x => !isDelim delim x), ¬ isDelim delim x = true) ∧
    maximalRuns delim (s.takeWhile (fun x => !isDelim delim x) ++
      (s.dropWhile (fun x => !isDelim delim x))) =
    (if s.takeWhile (fun x => !isDelim delim x) = [] then [] else
      [s.takeWhile (fun x => !isDelim delim x)]) ++
      maximalRuns delim ((s.dropWhile (fun x => !isDelim delim x)).tail) := by
  have hno : ∀ x ∈ s.takeWhile (fun x => !isDelim delim x), ¬ isDelim delim x = true := by
    intro x hx
    have := List.mem_takeWhile_imp hx
    simpa using this
  refine ⟨hno, ?_⟩
  cases hrest : s.dropWhile (fun x => !isDelim delim x) with
  | nil =>
    simp only [List.append_nil, List.tail_nil, maximalRuns_nil]
    unfold maximalRuns
    rw [List.splitOnP_eq_single _ _ hno]
    by_cases ht : s.takeWhile (fun x => !isDelim delim x) = [] <;> simp [ht]
  | cons d r =>
    have hd : isDelim delim d = true := by
      have h := List.head_dropWhile_not (fun x => !isDelim delim x) s
        (by rw [hrest]; exact List.cons_ne_nil _ _)
      simp only [hrest, List.head_cons] at h
      simpa using h
    simp only [List.tail_cons]
    unfold maximalRuns
    rw [List.splitOnP_first _ _ hno d hd r]
    by_cases ht : s.takeWhile (fun x => !isDelim delim x) = [] <;> simp [ht]

/-- One call of `strtok_r` returns the first maximal run and leaves the text
that holds the remaining ones. -/
theorem strtok_r_runs (delim : List Char) (s : List Char) :
    maximalRuns delim s =
      match strtok_r delim s with
      | (none, _) => []
      | (some tok, rest) => tok :: maximalRuns delim rest := by
  rw [← maximalRuns_dropWhile]
  unfold strtok_r
  cases h : s.dropWhile (isDelim delim) with
  | nil => simp [maximalRuns_nil]
  | cons c cs =>
    have hc : ¬ isDelim delim c = true := by
      have h1 := List.head_dropWhile_not (isDelim delim) s
        (by rw [h]; exact List.cons_ne_nil _ _)
      simpa [h] using h1
    have htok := (maximalRuns_token delim (c :: cs)).2
    rw [List.takeWhile_append_dropWhile] at htok
    have hne : (c :: cs).takeWhile (fun x => !isDelim delim x) ≠ [] := by
      rw [List.takeWhile_cons_of_pos (by simpa using hc)]
      exact List.cons_ne_nil _ _
    simp only [hne, if_false] at htok
    simpa using htok

/-- A successful call of `strtok_r` consumes the token and, unless the text
ends there, the delimiter after it. -/
theorem strtok_r_length (delim : List Char) (s tok rest : List Char)
    (h : strtok_r delim s = (some tok, rest)) :
    tok ≠ [] ∧ (rest = [] ∧ tok.length ≤ s.length ∨ tok.length + rest.length + 1 ≤ s.length) := by
  unfold strtok_r at h
  have hlen : (s.dropWhile (isDelim delim)).length ≤ s.length :=
    (List.dropWhile_sublist _).length_le
  cases hd : s.dropWhile (isDelim delim) with
  | nil => simp [hd] at h
  | cons c cs =>
    rw [hd] at h hlen
    simp only [Prod.mk.injEq, Option.some.injEq] at h
    obtain ⟨h1, h2⟩ := h
    have hc : ¬ isDelim delim c = true := by
      have h1 := List.head_dropWhile_not (isDelim delim) s
        (by rw [hd]; exact List.cons_ne_nil _ _)
      simpa [hd] using h1
    have hsplit := List.takeWhile_append_dropWhile (fun x => !isDelim delim x) (c :: cs)
    have hl := congrArg List.length hsplit
    rw [List.length_append, h1] at hl
    refine ⟨?_, ?_⟩
    · rw [← h1, List.takeWhile_cons_of_pos (by simpa using hc)]
      exact List.cons_ne_nil _ _
    · cases hr : (c :: cs).dropWhile (fun x => !isDelim delim x) with
      | nil =>
        left
        rw [hr] at h2 hl
        simp only [List.tail_nil] at h2
        simp only [List.length_nil, Nat.add_zero] at hl
        exact ⟨h2.symm, by omega⟩
      | cons d r =>
        right
        rw [hr] at h2 hl
        simp only [List.tail_cons] at h2
        subst h2
        simp only [List.length_cons] at hl hlen
        omega

/-- A text of `n` characters holds at most `(n + 1) / 2` maximal runs. -/
theorem maximalRuns_length (delim : List Char) :
    ∀ (n : Nat) (s : List Char), s.length ≤ n → 2 * (maximalRuns delim s).length ≤ s.length + 1 := by
  intro n
  induction n with
  | zero =>
    intro s hs
    have : s = [] := List.length_eq_zero.mp (Nat.le_zero.mp hs)
    subst this
    simp [maximalRuns_nil]
  | succ n ih =>
    intro s hs
    rw [strtok_r_runs delim s]
    cases h : strtok_r delim s with
    | mk tok rest =>
      cases tok with
      | none => simp
      | some tok =>
        obtain ⟨hne, hcase⟩ := strtok_r_length delim s tok rest h
        have htl : 0 < tok.length := List.length_pos.mpr hne
        simp only [List.length_cons]
        rcases hcase with ⟨hr, hl⟩ | hl
        · subst hr
          simp only [maximalRuns_nil, List.length_nil]
          omega
        · have := ih rest (by omega)
          omega

/-- The loop of `tokenizeCommand` appends the `&`-free maximal runs of the
unread text until `MAXLINE / 2` entries are stored. -/
theorem tokenizeLoop_eq :
    ∀ (fuel : Nat) (s : List Char) (args : List (List Char)), s.length ≤ fuel →
      tokenizeLoop fuel (strtok_r tokenDelims s).1 (strtok_r tokenDelims s).2 args =
        args ++ (expectedTokens s).take (MAXLINE / 2 - args.length) := by
  intro fuel
  induction fuel with
  | zero =>
    intro s args hs
    have : s = [] := List.length_eq_zero.mp (Nat.le_zero.mp hs)
    subst this
    simp [tokenizeLoop, expectedTokens, maximalRuns_nil]
  | succ fuel ih =>
    intro s args hs
    unfold expectedTokens
    rw [strtok_r_runs tokenDelims s]
    cases h : strtok_r tokenDelims s with
    | mk tok rest =>
      cases tok with
      | none => simp [tokenizeLoop]
      | some tok =>
        obtain ⟨hne, hcase⟩ := strtok_r_length tokenDelims s tok rest h
        have htl : 0 < tok.length := List.length_pos.mpr hne
        have hrest : rest.length ≤ fuel := by
          rcases hcase with ⟨hr, _⟩ | hl
          · subst hr; simp
          · omega
        simp only [tokenizeLoop]
        by_cases hcap : args.length < MAXLINE / 2
        · rw [if_pos hcap, ih rest _ hrest]
          by_cases hamp : tok = "&".toList
          · simp [hamp, expectedTokens]
          · have hpos : MAXLINE / 2 - args.length = (MAXLINE / 2 - (args.length + 1)) + 1 := by
              omega
            simp only [ne_eq, hamp, not_false_eq_true, if_true, List.length_append,
              List.length_singleton, decide_True, List.filter_cons_of_pos, expectedTokens]
            rw [hpos, List.take_succ_cons]
            simp
        · rw [if_neg hcap]
          have : MAXLINE / 2 - args.length = 0 := by omega
          simp [this]

theorem tokenizeCommand_eq_take (s : List Char) :
    tokenizeCommand s = (expectedTokens s).take (MAXLINE / 2) := by
  unfold tokenizeCommand
  rw [tokenizeLoop_eq (s.length + 1) s [] (Nat.le_succ _)]
  simp

/-- C1: for every command string shorter than `MAXLINE` characters,
`tokenizeCommand` yields exactly the maximal runs of characters other than
space, tab and newline, in order, without the tokens equal to `&`; a token that
only contains `&` is kept, `"a  b\tc"` gives `["a","b","c"]` and the empty
string gives no token. -/
theorem tokenizeCommand_maximal_runs :
    (∀ s : List Char, s.length < MAXLINE →
      tokenizeCommand s =
        (maximalRuns " \t\n".toList s).filter (fun t => t ≠ "&".toList)) ∧
    tokenizeCommand "a  b\tc".toList = ["a".toList, "b".toList, "c".toList] ∧
    tokenizeCommand "".toList = [] ∧
    tokenizeCommand "a& & b".toList = ["a&".toList, "b".toList] := by
  refine ⟨?_, by decide, by decide, by decide⟩
  intro s hs
  rw [tokenizeCommand_eq_take]
  apply List.take_of_length_le
  have h1 : (expectedTokens s).length ≤ (maximalRuns tokenDelims s).length :=
    List.length_filter_le _ _
  have h2 := maximalRuns_length tokenDelims s.length s (Nat.le_refl _)
  unfold MAXLINE at hs ⊢
  omega

/-- C1, at a concrete command: `"ls  -l\t& x&y\n"` is tokenized into `ls`, `-l` and
`x&y`. -/
theorem tokenizeCommand_maximal_runs_witness :
    "ls  -l\t& x&y\n".toList.length < MAXLINE ∧
    tokenizeCommand "ls  -l\t& x&y\n".toList = ["ls".toList, "-l".toList, "x&y".toList] :=
  ⟨by decide, by rw [tokenizeCommand_maximal_runs.1 _ (by decide)]; decide⟩

/-! ## The pipe split -/

theorem strtok_r_nil (delim : List Char) : strtok_r delim [] = (none, []) := rfl

theorem strtok_r_cons_delim (delim : List Char) (d : Char) (s : List Char)
    (hd : isDelim delim d = true) : strtok_r delim (d :: s) = strtok_r delim s := by
  unfold strtok_r
  rw [List.dropWhile_cons_of_pos hd]

/-- On a text that starts with a non-empty delimiter-free stretch followed by
a delimiter, `strtok_r` returns the stretch and leaves what follows the
delimiter. -/
theorem strtok_r_first (delim : List Char) (l : List Char) (d : Char) (r : List Char)
    (hl : ∀ x ∈ l, isDelim delim x = false) (hne : l ≠ []) (hd : isDelim delim d = true) :
    strtok_r delim (l ++ d :: r) = (some l, r) := by
  cases l with
  | nil => exact absurd rfl hne
  | cons c cs =>
    have hc : isDelim delim c = false := hl c (List.mem_cons_self _ _)
    unfold strtok_r
    have h0 : ((c :: cs) ++ d :: r).dropWhile (isDelim delim) = c :: (cs ++ d :: r) := by
      rw [List.cons_append, List.dropWhile_cons_of_neg (by simp [hc])]
    rw [h0]
    have hall : ∀ a ∈ c :: cs, (fun x => !isDelim delim x) a = true := by
      intro a ha
      simp [hl a ha]
    have h1 : (c :: (cs ++ d :: r)).takeWhile (fun x => !isDelim delim x) = c :: cs := by
      rw [← List.cons_append, List.takeWhile_append_of_pos hall,
        List.takeWhile_cons_of_neg (by simp [hd])]
      simp
    have h2 : (c :: (cs ++ d :: r)).dropWhile (fun x => !isDelim delim x) = d :: r := by
      rw [← List.cons_append, List.dropWhile_append_of_pos hall,
        List.dropWhile_cons_of_neg (by simp [hd])]
    simp only [h1, h2, List.tail_cons]

/-- On a non-empty delimiter-free text `strtok_r` returns the whole text. -/
theorem strtok_r_whole (delim : List Char) (l : List Char)
    (hl : ∀ x ∈ l, isDelim delim x = false) (hne : l ≠ []) :
    strtok_r delim l = (some l, []) := by
  cases l with
  | nil => exact absurd rfl hne
  | cons c cs =>
    have hc : isDelim delim c = false := hl c (List.mem_cons_self _ _)
    unfold strtok_r
    have hall : ∀ a ∈ c :: cs, (fun x => !isDelim delim x) a = true := by
      intro a ha
      simp [hl a ha]
    rw [List.dropWhile_cons_of_neg (by simp [hc])]
    have h1 : (c :: cs).takeWhile (fun x => !isDelim delim x) = c :: cs :=
      List.takeWhile_eq_self_iff.mpr hall
    have h2 : (c :: cs).dropWhile (fun x => !isDelim delim x) = [] :=
      List.dropWhile_eq_nil_iff.mpr hall
    simp only [h1, h2, List.tail_nil]

theorem isDelim_pipe (c : Char) : isDelim pipeDelims c = true ↔ c = '|' := by
  simp [isDelim, pipeDelims]

theorem isDelim_pipe_false (l : List Char) (h : '|' ∉ l) :
    ∀ x ∈ l, isDelim pipeDelims x = false := by
  intro x hx
  cases hb : isDelim pipeDelims x with
  | false => rfl
  | true => exact absurd ((isDelim_pipe x).mp hb ▸ hx) h

theorem splitPipeline_no_pipe (s : List Char) (h : '|' ∉ s) :
    splitPipeline s = Pipeline.Single s := by
  unfold splitPipeline
  cases s with
  | nil => simp [strtok_r_nil]
  | cons c cs =>
    rw [strtok_r_whole _ _ (isDelim_pipe_false _ h) (List.cons_ne_nil _ _)]
    have hc : isDelim pipeDelims c = false := isDelim_pipe_false _ h c (List.mem_cons_self _ _)
    simp only [strtok_r_nil, List.takeWhile_cons, hc]
    simp

theorem splitPipeline_two_pieces (l m : List Char) (rest : List Char)
    (hl : '|' ∉ l) (hlne : l ≠ []) (hm : '|' ∉ m) (hmne : m ≠ [])
    (hrest : rest = [] ∨ ∃ r, rest = '|' :: r) :
    splitPipeline (l ++ '|' :: (m ++ rest)) =
      Pipeline.Piped l (m.dropWhile (fun c => c = ' ')) := by
  unfold splitPipeline
  rw [strtok_r_first _ l '|' _ (isDelim_pipe_false _ hl) hlne ((isDelim_pipe _).mpr rfl)]
  rcases hrest with h | ⟨r, h⟩
  · subst h
    simp only [List.append_nil, strtok_r_whole _ m (isDelim_pipe_false _ hm) hmne]
  · subst h
    simp only [strtok_r_first _ m '|' _ (isDelim_pipe_false _ hm) hmne ((isDelim_pipe _).mpr rfl)]

/-- C2, counterexample: a text whose only `|` is its last or its first
character is not split into two stages, and a tab after the separator is not
trimmed. -/
theorem splitPipeline_edge_pipe_not_piped :
    "ls|".toList.count '|' = 1 ∧
    splitPipeline "ls|".toList = Pipeline.Single "ls".toList ∧
    "|ls".toList.count '|' = 1 ∧
    splitPipeline "|ls".toList = Pipeline.Single "|ls".toList ∧
    splitPipeline "a|\tb".toList = Pipeline.Piped "a".toList "\tb".toList := by
  decide

/-- C2, amended: a text without `|` yields `Single` with the text unchanged;
a text with exactly one `|` that has text on both sides yields `Piped` with
the text before the separator and the text after it without its leading
space characters; when the only `|` is the first character the result is
`Single` with the text unchanged, and when it is the last character the
result is `Single` with the text before the `|`. -/
theorem splitPipeline_at_most_one_pipe :
    (∀ s : List Char, '|' ∉ s → splitPipeline s = Pipeline.Single s) ∧
    (∀ l r : List Char, '|' ∉ l → '|' ∉ r → l ≠ [] → r ≠ [] →
      splitPipeline (l ++ '|' :: r) = Pipeline.Piped l (r.dropWhile (fun c => c = ' '))) ∧
    (∀ r : List Char, '|' ∉ r → splitPipeline ('|' :: r) = Pipeline.Single ('|' :: r)) ∧
    (∀ l : List Char, '|' ∉ l → l ≠ [] → splitPipeline (l ++ ['|']) = Pipeline.Single l) := by
  refine ⟨splitPipeline_no_pipe, ?_, ?_, ?_⟩
  · intro l r hl hr hlne hrne
    have := splitPipeline_two_pieces l r [] hl hlne hr hrne (Or.inl rfl)
    simpa using this
  · intro r hr
    unfold splitPipeline
    rw [strtok_r_cons_delim _ _ _ ((isDelim_pipe _).mpr rfl)]
    cases r with
    | nil => simp [strtok_r_nil]
    | cons c cs =>
      rw [strtok_r_whole _ _ (isDelim_pipe_false _ hr) (List.cons_ne_nil _ _)]
      have hc : isDelim pipeDelims c = false :=
        isDelim_pipe_false _ hr c (List.mem_cons_self _ _)
      have hp : isDelim pipeDelims '|' = true := (isDelim_pipe _).mpr rfl
      simp only [strtok_r_nil, List.takeWhile_cons, hc, hp]
      simp
  · intro l hl hlne
    unfold splitPipeline
    rw [strtok_r_first _ l '|' [] (isDelim_pipe_false _ hl) hlne ((isDelim_pipe _).mpr rfl)]
    cases l with
    | nil => exact absurd rfl hlne
    | cons c cs =>
      have hc : isDelim pipeDelims c = false :=
        isDelim_pipe_false _ hl c (List.mem_cons_self _ _)
      simp only [strtok_r_nil, List.cons_append, List.takeWhile_cons, hc]
      simp

/-- C2 as amended, at concrete texts without `|`, with one `|` inside, at the
start and at the end. -/
theorem splitPipeline_at_most_one_pipe_witness :
    splitPipeline "ls -l".toList = Pipeline.Single "ls -l".toList ∧
    splitPipeline "ls |  wc".toList = Pipeline.Piped "ls ".toList "wc".toList ∧
    splitPipeline "|wc".toList = Pipeline.Single "|wc".toList ∧
    splitPipeline "ls |".toList = Pipeline.Single "ls ".toList :=
  ⟨splitPipeline_at_most_one_pipe.1 "ls -l".toList (by decide),
   splitPipeline_at_most_one_pipe.2.1 "ls ".toList "  wc".toList (by decide) (by decide)
     (by decide) (by decide),
   splitPipeline_at_most_one_pipe.2.2.1 "wc".toList (by decide),
   splitPipeline_at_most_one_pipe.2.2.2 "ls ".toList (by decide) (by decide)⟩

/-- C3, counterexample: on `"a | b | c"` the right-hand text is `"b "`, the
second `|` and `" c"` are gone, and the right stage gets the vector
`["b"]`. -/
theorem splitPipeline_third_stage_dropped :
    splitPipeline "a | b | c".toList = Pipeline.Piped "a ".toList "b ".toList ∧
    splitPipeline "a | b | c".toList ≠ Pipeline.Piped "a".toList "b | c".toList ∧
    tokenizeCommand "b ".toList = ["b".toList] ∧
    tokenizeCommand "b ".toList ≠ ["b".toList, "|".toList, "c".toList] := by
  decide

/-- C3, amended: when the text before the first `|` and the text between the
first and the second `|` are both non-empty, the split yields the two-stage
`Piped` whose left text is the text before the first separator and whose right
text is the text between the first and the second separator without its
leading spaces; the second `|` and all that follows it are discarded.
`"a | b | c"` gives `Piped("a ", "b ")` and the right stage's vector is
`["b"]`. -/
theorem splitPipeline_second_pipe_cuts (l m r : List Char)
    (hl : '|' ∉ l) (hlne : l ≠ []) (hm : '|' ∉ m) (hmne : m ≠ []) :
    splitPipeline (l ++ '|' :: (m ++ '|' :: r)) =
      Pipeline.Piped l (m.dropWhile (fun c => c = ' ')) ∧
    splitPipeline "a | b | c".toList = Pipeline.Piped "a ".toList "b ".toList ∧
    pipeChildExec "b ".toList = [ChildStep.execvp (some "b".toList) ["b".toList]] :=
  ⟨splitPipeline_two_pieces l m _ hl hlne hm hmne (Or.inr ⟨r, rfl⟩), by decide, by decide⟩

/-- C3 as amended, at the text `"ls | grep a | wc -l"`. -/
theorem splitPipeline_second_pipe_cuts_witness :
    splitPipeline "ls | grep a | wc -l".toList = Pipeline.Piped "ls ".toList "grep a ".toList :=
  (splitPipeline_second_pipe_cuts "ls ".toList " grep a ".toList " wc -l".toList
    (by decide) (by decide) (by decide) (by decide)).1

/-! ## The redirection scan -/

theorem argAt_here (done : List (Option (List Char))) (x : Option (List Char))
    (xs : List (Option (List Char))) : argAt (done ++ x :: xs) done.length = x := by
  unfold argAt
  rw [List.getD_append_right _ _ _ _ (Nat.le_refl _)]
  simp

theorem argAt_next (done : List (Option (List Char))) (x : Option (List Char))
    (rest : List (List Char)) :
    argAt (done ++ x :: rest.map some) (done.length + 1) = rest.head? := by
  unfold argAt
  rw [List.getD_append_right _ _ _ _ (Nat.le_succ _)]
  cases rest <;> simp

theorem set_here (done : List (Option (List Char))) (x y : Option (List Char))
    (xs : List (Option (List Char))) :
    (done ++ x :: xs).set done.length y = (done ++ [y]) ++ xs := by
  rw [List.set_append_right _ _ (Nat.le_refl _)]
  simp

theorem head_ne_none_iff (rest : List (List Char)) : rest.head? ≠ none ↔ rest ≠ [] := by
  cases rest <;> simp

/-- One iteration of the scan at the first token not yet visited. -/
theorem redirectionLoop_step (fuel : Nat) (done : List (Option (List Char)))
    (a : List Char) (rest : List (List Char)) (inp out : Option (List Char)) :
    redirectionLoop (fuel + 1) done.length
        { args := done ++ (a :: rest).map some, input_file := inp, output_file := out } =
      if a = "<".toList ∧ rest ≠ [] then
        redirectionLoop fuel (done ++ [none]).length
          { args := (done ++ [none]) ++ rest.map some, input_file := rest.head?,
            output_file := out }
      else if a = ">".toList ∧ rest ≠ [] then
        redirectionLoop fuel (done ++ [none]).length
          { args := (done ++ [none]) ++ rest.map some, input_file := inp,
            output_file := rest.head? }
      else
        redirectionLoop fuel (done ++ [some a]).length
          { args := (done ++ [some a]) ++ rest.map some, input_file := inp,
            output_file := out } := by
  rw [redirectionLoop]
  simp only [List.map_cons, argAt_here, argAt_next, set_here, head_ne_none_iff,
    List.length_append, List.length_singleton]
  split_ifs <;> simp

/-- The scan loop, with fuel for every token still to visit, computes
`scanArgs`. -/
theorem redirectionLoop_eq_scanArgs :
    ∀ (rest : List (List Char)) (fuel : Nat) (done : List (Option (List Char)))
      (inp out : Option (List Char)), rest.length ≤ fuel →
      redirectionLoop fuel done.length
          { args := done ++ rest.map some, input_file := inp, output_file := out } =
        { scanArgs rest inp out with args := done ++ (scanArgs rest inp out).args } := by
  intro rest
  induction rest with
  | nil =>
    intro fuel done inp out _
    cases fuel with
    | zero => simp [redirectionLoop, scanArgs]
    | succ fuel =>
      rw [redirectionLoop]
      have : argAt done done.length = none := by
        unfold argAt
        simp
      simp [this, scanArgs]
  | cons a rest ih =>
    intro fuel done inp out hfuel
    cases fuel with
    | zero => simp at hfuel
    | succ fuel =>
      have hf : rest.length ≤ fuel := by simpa using hfuel
      rw [redirectionLoop_step, scanArgs]
      split_ifs <;> rw [ih _ _ _ _ hf] <;> simp

theorem resolveRedirection_eq_scanArgs (args : List (List Char)) :
    resolveRedirection args = scanArgs args none none := by
  unfold resolveRedirection
  have := redirectionLoop_eq_scanArgs args (args.length + 1) [] none none (Nat.le_succ _)
  simpa using this

theorem execArgv_map_some (pre : List (List Char)) : execArgv (pre.map some) = pre := by
  induction pre with
  | nil => rfl
  | cons a pre ih => simp [execArgv, ih]

theorem execArgv_cut (pre : List (List Char)) (xs : List (Option (List Char))) :
    execArgv (pre.map some ++ none :: xs) = pre := by
  induction pre with
  | nil => rfl
  | cons a pre ih => simp [execArgv, ih]

/-- Tokens that are not operators are kept by the scan. -/
theorem scanArgs_prefix (pre rest : List (List Char)) (inp out : Option (List Char))
    (hpre : ∀ a ∈ pre, a ≠ "<".toList ∧ a ≠ ">".toList) :
    scanArgs (pre ++ rest) inp out =
      { scanArgs rest inp out with args := pre.map some ++ (scanArgs rest inp out).args } := by
  induction pre with
  | nil => simp
  | cons a pre ih =>
    have ha := hpre a (List.mem_cons_self _ _)
    have ih1 := ih (fun b hb => hpre b (List.mem_cons_of_mem _ hb))
    rw [List.cons_append, scanArgs]
    simp only [ha.1, ha.2, false_and, if_false, ih1]
    simp

theorem scanArgs_input_file (l : List (List Char)) (inp out : Option (List Char))
    (h : "<".toList ∉ l) : (scanArgs l inp out).input_file = inp := by
  induction l generalizing inp out with
  | nil => rfl
  | cons a rest ih =>
    have ha : ¬ a = "<".toList := fun e => h (e ▸ List.mem_cons_self _ _)
    have hrest : "<".toList ∉ rest := fun hm => h (List.mem_cons_of_mem _ hm)
    rw [scanArgs]
    simp only [ha, false_and, if_false]
    split_ifs <;> simp [ih _ _ hrest]

theorem scanArgs_output_file (l : List (List Char)) (inp out : Option (List Char))
    (h : ">".toList ∉ l) : (scanArgs l inp out).output_file = out := by
  induction l generalizing inp out with
  | nil => rfl
  | cons a rest ih =>
    have ha : ¬ a = ">".toList := fun e => h (e ▸ List.mem_cons_self _ _)
    have hrest : ">".toList ∉ rest := fun hm => h (List.mem_cons_of_mem _ hm)
    rw [scanArgs]
    simp only [ha, false_and, if_false]
    split_ifs <;> simp [ih _ _ hrest]

/-- C4, counterexample: on `sort < in.txt -r` the vector handed to `execvp`
is `["sort"]`; the argument `-r` that follows the path is not passed. -/
theorem resolveRedirection_drops_later_args :
    execArgv (resolveRedirection
      ["sort".toList, "<".toList, "in.txt".toList, "-r".toList]).args = ["sort".toList] ∧
    execArgv (resolveRedirection
      ["sort".toList, "<".toList, "in.txt".toList, "-r".toList]).args ≠
        ["sort".toList, "-r".toList] ∧
    executeCommand ⟨true, true, true⟩ "sort < in.txt -r".toList true =
      [Action.fork Pid.pid
        [ChildStep.openInput "in.txt".toList,
         ChildStep.execvp (some "sort".toList) ["sort".toList]],
       Action.waitpid Pid.pid] := by
  decide

/-- C4, amended: when `<` (respectively `>`) is immediately followed by
another token and no redirection operator stands before it, the vector passed
to `execvp` is exactly the arguments before the operator, in their order (the
operator, the path and every argument after them are not passed), and the
token is recorded as the input (respectively output) path when that operator
does not occur again from the path on; `["cat","<","in.txt"]` resolves to
`["cat"]`, input `in.txt`, no output. -/
theorem resolveRedirection_cuts_at_operator (pre post : List (List Char)) (path : List Char)
    (hpre : ∀ a ∈ pre, a ≠ "<".toList ∧ a ≠ ">".toList) :
    (execArgv (resolveRedirection (pre ++ "<".toList :: path :: post)).args = pre ∧
      ("<".toList ∉ path :: post →
        (resolveRedirection (pre ++ "<".toList :: path :: post)).input_file = some path)) ∧
    (execArgv (resolveRedirection (pre ++ ">".toList :: path :: post)).args = pre ∧
      (">".toList ∉ path :: post →
        (resolveRedirection (pre ++ ">".toList :: path :: post)).output_file = some path)) ∧
    (execArgv (resolveRedirection ["cat".toList, "<".toList, "in.txt".toList]).args =
        ["cat".toList] ∧
      (resolveRedirection ["cat".toList, "<".toList, "in.txt".toList]).input_file =
        some "in.txt".toList ∧
      (resolveRedirection ["cat".toList, "<".toList, "in.txt".toList]).output_file = none) := by
  refine ⟨⟨?_, ?_⟩, ⟨?_, ?_⟩, by decide⟩
  · rw [resolveRedirection_eq_scanArgs, scanArgs_prefix _ _ _ _ hpre, scanArgs]
    simp [execArgv_cut]
  · intro h
    rw [resolveRedirection_eq_scanArgs, scanArgs_prefix _ _ _ _ hpre, scanArgs]
    simp only [List.cons_ne_nil, ne_eq, not_false_eq_true, and_self, if_true, List.head?_cons]
    exact scanArgs_input_file _ _ _ h
  · rw [resolveRedirection_eq_scanArgs, scanArgs_prefix _ _ _ _ hpre, scanArgs]
    have hne : ¬ ">".toList = "<".toList := by decide
    simp [hne, execArgv_cut]
  · intro h
    rw [resolveRedirection_eq_scanArgs, scanArgs_prefix _ _ _ _ hpre, scanArgs]
    have hne : ¬ ">".toList = "<".toList := by decide
    simp only [hne, false_and, if_false, List.cons_ne_nil, ne_eq, not_false_eq_true, and_self,
      if_true, List.head?_cons]
    exact scanArgs_output_file _ _ _ h

/-- C4 as amended, at the vector `["ls","-l",">","out.txt","x"]`. -/
theorem resolveRedirection_cuts_at_operator_witness :
    execArgv (resolveRedirection
      ["ls".toList, "-l".toList, ">".toList, "out.txt".toList, "x".toList]).args =
        ["ls".toList, "-l".toList] ∧
    (resolveRedirection
      ["ls".toList, "-l".toList, ">".toList, "out.txt".toList, "x".toList]).output_file =
        some "out.txt".toList :=
  ⟨(resolveRedirection_cuts_at_operator ["ls".toList, "-l".toList] ["x".toList]
      "out.txt".toList (by decide)).2.1.1,
   (resolveRedirection_cuts_at_operator ["ls".toList, "-l".toList] ["x".toList]
      "out.txt".toList (by decide)).2.1.2 (by decide)⟩

/-! ## `processLine` -/

/-- The segmenting loop, with fuel for every character still to read, visits
the `;`-free maximal runs of the line in order; the fuel of `segmentLine` is
never used up. -/
theorem segmentLoop_eq :
    ∀ (fuel : Nat) (s : List Char) (segs : List Segment), s.length ≤ fuel →
      segmentLoop fuel (strtok_r stmtDelims s).1 (strtok_r stmtDelims s).2 segs =
        appendPieces (maximalRuns stmtDelims s) segs := by
  intro fuel
  induction fuel with
  | zero =>
    intro s segs hs
    have : s = [] := List.length_eq_zero.mp (Nat.le_zero.mp hs)
    subst this
    simp [segmentLoop, maximalRuns_nil, appendPieces]
  | succ fuel ih =>
    intro s segs hs
    rw [strtok_r_runs stmtDelims s]
    cases h : strtok_r stmtDelims s with
    | mk tok rest =>
      cases tok with
      | none => simp [segmentLoop, appendPieces]
      | some tok =>
        obtain ⟨hne, hcase⟩ := strtok_r_length stmtDelims s tok rest h
        have htl : 0 < tok.length := List.length_pos.mpr hne
        have hrest : rest.length ≤ fuel := by
          rcases hcase with ⟨hr, _⟩ | hl
          · subst hr; simp
          · omega
        simp only [segmentLoop, appendPieces]
        by_cases hcap : segs.length < MAXLINE
        · rw [if_pos hcap, if_pos hcap, ih rest _ hrest]
        · rw [if_neg hcap, if_neg hcap]

theorem segmentLine_eq (line : List Char) :
    segmentLine line = appendPieces (maximalRuns stmtDelims line) [] := by
  unfold segmentLine
  exact segmentLoop_eq (line.length + 1) line [] (Nat.le_succ _)

theorem mem_appendPieces (seg : Segment) :
    ∀ (pieces : List (List Char)) (segs : List Segment), seg ∈ appendPieces pieces segs →
      seg ∈ segs ∨ ∃ piece ∈ pieces, seg ∈ pieceSegments piece := by
  intro pieces
  induction pieces with
  | nil => intro segs h; exact Or.inl h
  | cons piece rest ih =>
    intro segs h
    rw [appendPieces] at h
    split_ifs at h
    · rcases ih _ h with h1 | ⟨q, hq, hseg⟩
      · rcases List.mem_append.mp h1 with h2 | h2
        · exact Or.inl h2
        · exact Or.inr ⟨piece, List.mem_cons_self _ _, h2⟩
      · exact Or.inr ⟨q, List.mem_cons_of_mem _ hq, hseg⟩
    · exact Or.inl h

/-- The two trimming loops leave a text that neither begins nor ends with a
space or a tab. -/
theorem trimmed_no_blank (cmd0 : List Char) :
    startsBlank (trimTrailing (trimLeading cmd0)) = false ∧
    endsBlank (trimTrailing (trimLeading cmd0)) = false := by
  unfold trimLeading
  cases h : cmd0.dropWhile isBlank with
  | nil => exact ⟨rfl, rfl⟩
  | cons c cs =>
    have hc : isBlank c = false := by
      have h1 := List.head_dropWhile_not isBlank cmd0 (by rw [h]; exact List.cons_ne_nil _ _)
      simpa [h] using h1
    refine ⟨by simp [trimTrailing, startsBlank, hc], ?_⟩
    simp only [trimTrailing, endsBlank]
    by_cases hr : cs.rdropWhile isBlank = []
    · simp [hr, hc]
    · have hlast := List.rdropWhile_last_not isBlank cs hr
      rw [List.getLast?_cons, List.getLast?_eq_getLast _ hr]
      simpa using hlast

theorem startsBlank_of_initial (t cmd : List Char) (h : t <+: cmd)
    (hcmd : startsBlank cmd = false) : startsBlank t = false := by
  obtain ⟨r, rfl⟩ := h
  cases t with
  | nil => rfl
  | cons c cs => simpa [startsBlank] using hcmd

theorem endsBlank_of_final (t cmd : List Char) (h : t <:+ cmd) (hne : t ≠ [])
    (hcmd : endsBlank cmd = false) : endsBlank t = false := by
  obtain ⟨r, rfl⟩ := h
  unfold endsBlank at hcmd ⊢
  rw [List.getLast?_append_of_ne_nil _ hne] at hcmd
  exact hcmd

/-- What the segmenting loop does guarantee: no stored text begins with a
space or a tab, and a text stored with the flag clear is non-empty and does not
end with a space or a tab. -/
theorem pieceSegments_trimmed (cmd0 : List Char) (seg : Segment)
    (h : seg ∈ pieceSegments cmd0) :
    startsBlank seg.text = false ∧
    (seg.background = false → seg.text ≠ [] ∧ endsBlank seg.text = false) := by
  obtain ⟨hs, he⟩ := trimmed_no_blank cmd0
  unfold pieceSegments at h
  simp only at h
  split_ifs at h with hne hamp hafter
  · rcases List.mem_cons.mp h with h1 | h1
    · subst h1
      exact ⟨startsBlank_of_initial _ _ (List.takeWhile_prefix _) hs, by simp⟩
    · rw [List.mem_singleton] at h1
      subst h1
      have hsuf : ((((trimTrailing (trimLeading cmd0)).dropWhile
          (fun c => c ≠ '&')).tail).dropWhile isBlank) <:+ trimTrailing (trimLeading cmd0) :=
        ((List.dropWhile_suffix _).trans (List.tail_suffix _)).trans (List.dropWhile_suffix _)
      refine ⟨?_, fun _ => ⟨hafter, endsBlank_of_final _ _ hsuf hafter he⟩⟩
      have h1 := List.head?_dropWhile_not isBlank
        (((trimTrailing (trimLeading cmd0)).dropWhile (fun c => c ≠ '&')).tail)
      unfold startsBlank
      cases hh : ((((trimTrailing (trimLeading cmd0)).dropWhile
          (fun c => c ≠ '&')).tail).dropWhile isBlank).head? with
      | none => rfl
      | some c =>
        rw [hh] at h1
        simpa using h1
  · rcases List.mem_cons.mp h with h1 | h1
    · subst h1
      exact ⟨startsBlank_of_initial _ _ (List.takeWhile_prefix _) hs, by simp⟩
    · simp at h1
  · rw [List.mem_singleton] at h
    subst h
    exact ⟨hs, fun _ => ⟨hne, he⟩⟩
  · simp at h

theorem segmentLine_trimmed (line : List Char) (seg : Segment) (h : seg ∈ segmentLine line) :
    startsBlank seg.text = false ∧
    (seg.background = false → seg.text ≠ [] ∧ endsBlank seg.text = false) := by
  rw [segmentLine_eq] at h
  rcases mem_appendPieces seg _ _ h with h1 | ⟨piece, _, hseg⟩
  · simp at h1
  · exact pieceSegments_trimmed piece seg hseg

/-- The rule of the segmenting loop for a piece that holds `&`, on the piece
as trimmed by the two trimming loops: the text before the first `&` is stored
as it stands with the flag set, and the text after the `&` and the blanks that
follow it, when there is any, is stored with the flag clear. -/
theorem pieceSegments_ampersand (cmd0 : List Char)
    (h : '&' ∈ trimTrailing (trimLeading cmd0)) :
    pieceSegments cmd0 =
      { text := (trimTrailing (trimLeading cmd0)).takeWhile (fun c => c ≠ '&'),
        background := true } ::
      (if (((trimTrailing (trimLeading cmd0)).dropWhile (fun c => c ≠ '&')).tail).dropWhile
          isBlank ≠ [] then
        [{ text := (((trimTrailing (trimLeading cmd0)).dropWhile
              (fun c => c ≠ '&')).tail).dropWhile isBlank,
           background := false }]
      else []) := by
  have hne : trimTrailing (trimLeading cmd0) ≠ [] := List.ne_nil_of_mem h
  simp only [pieceSegments, hne, h, ne_eq, not_false_eq_true, if_true]

/-- C5, the code on the line of `runTests`: segmenting `"ls & whoami ;"` stores
`"ls "`, with the space before the `&`, as the background segment, not
`"ls"`. -/
theorem processLine_ls_whoami_segments :
    (processLine (fun _ => ⟨true, true, true⟩) [] "ls & whoami ;".toList).commands =
      [{ text := "ls ".toList, background := true },
       { text := "whoami".toList, background := false }] ∧
    (processLine (fun _ => ⟨true, true, true⟩) [] "ls & whoami ;".toList).commands ≠
      [{ text := "ls".toList, background := true },
       { text := "whoami".toList, background := false }] := by
  decide

theorem processLine_of_ne (sys : Nat → SysOutcome) (slot line : List Char)
    (h : line ≠ "!!".toList) :
    processLine sys slot line =
      { lastCommand := line, commands := segmentLine line,
        trace := executeAll sys 0 (segmentLine line) } := by
  unfold processLine
  rw [if_neg h]

theorem processLine_of_recall (sys : Nat → SysOutcome) (slot : List Char) :
    processLine sys slot "!!".toList =
      if slot.length = 0 then { lastCommand := slot, commands := [], trace := [] }
      else { lastCommand := slot, commands := segmentLine slot,
             trace := executeAll sys 0 (segmentLine slot) } := by
  unfold processLine
  rw [if_pos rfl]

/-- C6: after `processLine(L)` for a line `L` other than `!!` and shorter than
`MAXLINE`, a following `processLine("!!")` stores the same segments as the
call on `L` did, which are the segments of `L`, and leaves `lastCommand`
equal to `L`. -/
theorem processLine_recall (sys sys2 : Nat → SysOutcome) (slot L : List Char)
    (hL : L ≠ "!!".toList) (_hlen : L.length < MAXLINE) :
    (processLine sys2 (processLine sys slot L).lastCommand "!!".toList).commands =
      (processLine sys slot L).commands ∧
    (processLine sys slot L).commands = segmentLine L ∧
    (processLine sys2 (processLine sys slot L).lastCommand "!!".toList).lastCommand = L := by
  rw [processLine_of_ne sys slot L hL, processLine_of_recall]
  by_cases hz : L.length = 0
  · have hnil : L = [] := List.length_eq_zero.mp hz
    subst hnil
    exact ⟨rfl, rfl, rfl⟩
  · simp only [hz, if_false, and_self]

/-- C6 at the line `"ls -al; cat < junk.txt"`. -/
theorem processLine_recall_witness :
    (processLine (fun _ => ⟨true, true, true⟩)
        (processLine (fun _ => ⟨true, true, true⟩) [] "ls -al; cat < junk.txt".toList).lastCommand
        "!!".toList).commands =
      [{ text := "ls -al".toList, background := false },
       { text := "cat < junk.txt".toList, background := false }] ∧
    (processLine (fun _ => ⟨true, true, true⟩)
        (processLine (fun _ => ⟨true, true, true⟩) [] "ls -al; cat < junk.txt".toList).lastCommand
        "!!".toList).lastCommand = "ls -al; cat < junk.txt".toList := by
  have h := processLine_recall (fun _ => ⟨true, true, true⟩) (fun _ => ⟨true, true, true⟩) []
    "ls -al; cat < junk.txt".toList (by decide) (by decide)
  refine ⟨?_, h.2.2⟩
  rw [h.1, h.2.1]
  decide

/-- C7, the code on three lines: the background segment of `"ls & whoami ;"`
ends in a space, and the line `"&"` gives a segment with an empty text.  The
blank that is kept matters to `executeCommand`: `" ascii "` is trimmed to the
reserved command `ascii`, which makes no system call, and `"ascii &"` is
stored as `"ascii "`, which is forked and handed to `execvp`. -/
theorem processLine_segment_untrimmed :
    (∃ seg ∈ (processLine (fun _ => ⟨true, true, true⟩) [] "ls & whoami ;".toList).commands,
      seg.text.getLast? = some ' ') ∧
    (∃ seg ∈ (processLine (fun _ => ⟨true, true, true⟩) [] "&".toList).commands,
      seg.text = []) ∧
    (processLine (fun _ => ⟨true, true, true⟩) [] " ascii ".toList).trace = [] ∧
    (processLine (fun _ => ⟨true, true, true⟩) [] "ascii &".toList).trace =
      [Action.fork Pid.pid [ChildStep.execvp (some "ascii".toList) ["ascii".toList]],
       Action.usleep 10000] := by
  refine ⟨⟨{ text := "ls ".toList, background := true }, by decide, by decide⟩,
    ⟨{ text := [], background := true }, by decide, rfl⟩, by decide, by decide⟩

theorem slotAfter_eq (calls : List ((Nat → SysOutcome) × List Char)) :
    ∀ slot : List Char, slotAfter slot calls =
      (((calls.map (fun call => call.2)).filter (fun l => l ≠ "!!".toList)).getLast?).getD slot := by
  induction calls with
  | nil => intro slot; rfl
  | cons call rest ih =>
    intro slot
    rw [slotAfter, ih]
    by_cases hl : call.2 = "!!".toList
    · have hslot : (processLine call.1 slot call.2).lastCommand = slot := by
        rw [hl, processLine_of_recall]
        split_ifs <;> rfl
      rw [hslot]
      simp only [List.map_cons, ne_eq, hl, not_true_eq_false, decide_False]
      rw [List.filter_cons_of_neg (by simp)]
    · have hslot : (processLine call.1 slot call.2).lastCommand = call.2 := by
        rw [processLine_of_ne _ _ _ hl]
      rw [hslot]
      simp only [List.map_cons, ne_eq, hl, not_false_eq_true, decide_True,
        List.filter_cons_of_pos]
      rw [List.getLast?_cons]
      simp

/-- C8: starting from the empty history slot, after any sequence of calls of
`processLine` the slot `lastCommand` is not `"!!"`: it holds the most recent
line other than `"!!"`, and is empty when there was none. -/
theorem lastCommand_never_recall_token (calls : List ((Nat → SysOutcome) × List Char)) :
    slotAfter [] calls ≠ "!!".toList ∧
    slotAfter [] calls =
      (((calls.map (fun call => call.2)).filter (fun l => l ≠ "!!".toList)).getLast?).getD [] := by
  refine ⟨?_, slotAfter_eq calls []⟩
  rw [slotAfter_eq]
  cases h : ((calls.map (fun call => call.2)).filter (fun l => l ≠ "!!".toList)).getLast? with
  | none => simp only [Option.getD_none]; decide
  | some x =>
    have hx := List.mem_of_getLast?_eq_some h
    have := (List.mem_filter.mp hx).2
    simpa using this

/-- C9: with an empty history slot, `processLine("!!")` stores no segment,
makes no system call and leaves the slot empty. -/
theorem processLine_recall_empty_history (sys : Nat → SysOutcome) :
    processLine sys [] "!!".toList = { lastCommand := [], commands := [], trace := [] } := by
  rw [processLine_of_recall]
  rfl

/-! ## A redirection operator in last position -/

/-- The iteration of the scan at the last token changes nothing: stopping the
loop after one iteration per earlier token gives the final state. -/
theorem redirectionLoop_last_noop (op : List Char) :
    ∀ (pre : List (List Char)) (done : List (Option (List Char)))
      (inp out : Option (List Char)),
      redirectionLoop (pre.length + 2) done.length
          { args := done ++ (pre ++ [op]).map some, input_file := inp, output_file := out } =
        redirectionLoop pre.length done.length
          { args := done ++ (pre ++ [op]).map some, input_file := inp, output_file := out } := by
  intro pre
  induction pre with
  | nil =>
    intro done inp out
    have hstep := redirectionLoop_step 1 done op [] inp out
    simp only [List.nil_append, List.length_nil, Nat.zero_add] at hstep ⊢
    rw [hstep]
    simp only [ne_eq, not_true_eq_false, and_false, if_false, List.map_nil, List.append_nil]
    have hnone : argAt (done ++ [some op]) (done ++ [some op]).length = none := by
      unfold argAt
      exact List.getD_eq_default _ _ (Nat.le_refl _)
    simp only [redirectionLoop, hnone, List.map_cons, List.map_nil]
  | cons a pre ih =>
    intro done inp out
    have hne : pre ++ [op] ≠ [] := by simp
    have h1 := redirectionLoop_step (pre.length + 2) done a (pre ++ [op]) inp out
    have h2 := redirectionLoop_step pre.length done a (pre ++ [op]) inp out
    simp only [List.cons_append, List.length_cons] at h1 h2 ⊢
    rw [h1, h2]
    split_ifs <;> exact ih _ _ _

/-- The scan never overwrites the last slot. -/
theorem scanArgs_getLast (l : List (List Char)) :
    ∀ inp out : Option (List Char),
      (scanArgs l inp out).args.getLast? = l.getLast?.map some := by
  induction l with
  | nil => intro inp out; rfl
  | cons a rest ih =>
    intro inp out
    cases rest with
    | nil => simp [scanArgs]
    | cons b t =>
      have hx : (b :: t).getLast? = some ((b :: t).getLast (List.cons_ne_nil _ _)) :=
        List.getLast?_eq_getLast _ _
      rw [scanArgs]
      split_ifs <;>
        (dsimp only
         rw [List.getLast?_cons, ih, List.getLast?_cons_cons, hx]
         rfl)

/-- C10: when the last token of the vector is `<` or `>`, the scan leaves
that slot of `args[]` holding the operator and its iteration at the operator
changes neither `args[]` nor the two paths, as for any other last token; when
no operator stands earlier in the vector, the vector passed to `execvp` is the
whole vector with the operator as its last argument and no path is set.
`["ls", ">"]` stays `["ls", ">"]` without input or output path. -/
theorem resolveRedirection_trailing_operator (pre : List (List Char)) (op : List Char)
    (_hop : op = "<".toList ∨ op = ">".toList) :
    (resolveRedirection (pre ++ [op])).args.getLast? = some (some op) ∧
    resolveRedirection (pre ++ [op]) =
      redirectionLoop pre.length 0
        { args := (pre ++ [op]).map some, input_file := none, output_file := none } ∧
    ((∀ a ∈ pre, a ≠ "<".toList ∧ a ≠ ">".toList) →
      execArgv (resolveRedirection (pre ++ [op])).args = pre ++ [op] ∧
      (resolveRedirection (pre ++ [op])).input_file = none ∧
      (resolveRedirection (pre ++ [op])).output_file = none) ∧
    resolveRedirection ["ls".toList, ">".toList] =
      { args := [some "ls".toList, some ">".toList], input_file := none,
        output_file := none } := by
  refine ⟨?_, ?_, ?_, by decide⟩
  · rw [resolveRedirection_eq_scanArgs, scanArgs_getLast]
    simp
  · have h := redirectionLoop_last_noop op pre [] none none
    simp only [List.nil_append, List.length_nil] at h
    unfold resolveRedirection
    rw [← h]
    simp
  · intro hpre
    rw [resolveRedirection_eq_scanArgs, scanArgs_prefix _ _ _ _ hpre]
    have hlast : scanArgs [op] none none =
        { args := [some op], input_file := none, output_file := none } := by
      simp [scanArgs]
    rw [hlast]
    refine ⟨?_, rfl, rfl⟩
    have : pre.map some ++ [some op] = (pre ++ [op]).map some := by simp
    simp only [this, execArgv_map_some]

/-- C10 at the vector `["cat","-n","<"]`. -/
theorem resolveRedirection_trailing_operator_witness :
    (resolveRedirection ["cat".toList, "-n".toList, "<".toList]).args.getLast? =
      some (some "<".toList) ∧
    execArgv (resolveRedirection ["cat".toList, "-n".toList, "<".toList]).args =
      ["cat".toList, "-n".toList, "<".toList] ∧
    (resolveRedirection ["cat".toList, "-n".toList, "<".toList]).input_file = none ∧
    (resolveRedirection ["cat".toList, "-n".toList, "<".toList]).output_file = none :=
  ⟨(resolveRedirection_trailing_operator ["cat".toList, "-n".toList] "<".toList
      (Or.inl rfl)).1,
   (resolveRedirection_trailing_operator ["cat".toList, "-n".toList] "<".toList
      (Or.inl rfl)).2.2.1 (by decide)⟩

/-! ## Several occurrences of a redirection operator -/

/-- An operator that occurs at most in last position sets no input path. -/
theorem scanArgs_input_file_of_dropLast (l : List (List Char)) :
    ∀ inp out : Option (List Char), "<".toList ∉ l.dropLast →
      (scanArgs l inp out).input_file = inp := by
  induction l with
  | nil => intro inp out _; rfl
  | cons a rest ih =>
    intro inp out h
    cases rest with
    | nil => simp [scanArgs]
    | cons b t =>
      rw [List.dropLast_cons₂] at h
      have ha : ¬ a = "<".toList := fun e => h (e ▸ List.mem_cons_self _ _)
      have hrest : "<".toList ∉ (b :: t).dropLast := fun hm => h (List.mem_cons_of_mem _ hm)
      rw [scanArgs]
      simp only [ha, false_and, if_false]
      split_ifs <;> simp [ih _ _ hrest]

/-- An operator that occurs at most in last position sets no output path. -/
theorem scanArgs_output_file_of_dropLast (l : List (List Char)) :
    ∀ inp out : Option (List Char), ">".toList ∉ l.dropLast →
      (scanArgs l inp out).output_file = out := by
  induction l with
  | nil => intro inp out _; rfl
  | cons a rest ih =>
    intro inp out h
    cases rest with
    | nil => simp [scanArgs]
    | cons b t =>
      rw [List.dropLast_cons₂] at h
      have ha : ¬ a = ">".toList := fun e => h (e ▸ List.mem_cons_self _ _)
      have hrest : ">".toList ∉ (b :: t).dropLast := fun hm => h (List.mem_cons_of_mem _ hm)
      rw [scanArgs]
      simp only [ha, false_and, if_false]
      split_ifs <;> simp [ih _ _ hrest]

/-- The scan of a vector passes on to any tail with some values of the two
paths: what it records is decided by the tail. -/
theorem scanArgs_append (pre rest : List (List Char)) :
    ∀ inp out : Option (List Char), ∃ inp2 out2 : Option (List Char),
      (scanArgs (pre ++ rest) inp out).input_file = (scanArgs rest inp2 out2).input_file ∧
      (scanArgs (pre ++ rest) inp out).output_file = (scanArgs rest inp2 out2).output_file := by
  induction pre with
  | nil => intro inp out; exact ⟨inp, out, rfl, rfl⟩
  | cons a pre ih =>
    intro inp out
    rw [List.cons_append, scanArgs]
    split_ifs
    · exact ih _ _
    · exact ih _ _
    · exact ih _ _

/-- C11: when an operator `<` (respectively `>`) is followed by a token and
no later occurrence of the same operator is followed by a token, the token is
the recorded input (respectively output) path, whatever stands before the
operator, earlier occurrences included: the last occurrence wins.
`["cat","<","a","<","b"]` gives the input path `b`. -/
theorem resolveRedirection_last_occurrence (pre post : List (List Char)) (path : List Char) :
    ("<".toList ∉ (path :: post).dropLast →
      (resolveRedirection (pre ++ "<".toList :: path :: post)).input_file = some path) ∧
    (">".toList ∉ (path :: post).dropLast →
      (resolveRedirection (pre ++ ">".toList :: path :: post)).output_file = some path) ∧
    (resolveRedirection
      ["cat".toList, "<".toList, "a".toList, "<".toList, "b".toList]).input_file =
        some "b".toList := by
  refine ⟨?_, ?_, by decide⟩
  · intro h
    rw [resolveRedirection_eq_scanArgs]
    obtain ⟨inp2, out2, hin, _⟩ :=
      scanArgs_append pre ("<".toList :: path :: post) none none
    rw [hin, scanArgs]
    simp only [List.cons_ne_nil, ne_eq, not_false_eq_true, and_self, if_true, List.head?_cons]
    exact scanArgs_input_file_of_dropLast _ _ _ h
  · intro h
    rw [resolveRedirection_eq_scanArgs]
    obtain ⟨inp2, out2, _, hout⟩ :=
      scanArgs_append pre (">".toList :: path :: post) none none
    rw [hout, scanArgs]
    have hne : ¬ ">".toList = "<".toList := by decide
    simp only [hne, false_and, if_false, List.cons_ne_nil, ne_eq, not_false_eq_true, and_self,
      if_true, List.head?_cons]
    exact scanArgs_output_file_of_dropLast _ _ _ h

/-- C11 at the vector `["sort",">","x","-r",">","y",">"]`: the output path is
`y`, the token after the last `>` that has one. -/
theorem resolveRedirection_last_occurrence_witness :
    (resolveRedirection ["sort".toList, ">".toList, "x".toList, "-r".toList, ">".toList,
      "y".toList, ">".toList]).output_file = some "y".toList :=
  (resolveRedirection_last_occurrence ["sort".toList, ">".toList, "x".toList, "-r".toList]
    [">".toList] "y".toList).2.1 (by decide)

/-! ## Process creation -/

theorem splitPipeline_ascii : splitPipeline "ascii".toList = Pipeline.Single "ascii".toList := by
  decide

/-- The trace of `executeCommand` on a text that splits as `Piped`, when
`pipe()` and both calls of `fork()` succeed. -/
theorem executeCommand_piped_trace (sys : SysOutcome) (command leftCommand rightCommand : List Char)
    (should_wait : Bool)
    (hsplit : splitPipeline command = Pipeline.Piped leftCommand rightCommand)
    (hpipe : sys.pipeOk = true) (hfork1 : sys.fork1Ok = true) (hfork2 : sys.fork2Ok = true) :
    executeCommand sys command should_wait =
      [Action.pipe,
       Action.fork Pid.pid1 ([ChildStep.close PipeEnd.RD, ChildStep.dup2Stdout PipeEnd.WR,
         ChildStep.close PipeEnd.WR] ++ pipeChildExec leftCommand),
       Action.fork Pid.pid2 ([ChildStep.close PipeEnd.WR, ChildStep.dup2Stdin PipeEnd.RD,
         ChildStep.close PipeEnd.RD] ++ pipeChildExec rightCommand),
       Action.close PipeEnd.WR, Action.waitpid Pid.pid1,
       Action.close PipeEnd.RD, Action.waitpid Pid.pid2] := by
  have hascii : command ≠ "ascii".toList := by
    intro h
    rw [h, splitPipeline_ascii] at hsplit
    exact Pipeline.noConfusion hsplit
  unfold executeCommand
  rw [if_neg hascii, hsplit]
  simp only [hpipe, hfork1, hfork2, Bool.not_true, Bool.false_eq_true, if_false]

/-- The trace of `executeCommand` on a text that is not split, when the
tokenized vector is not empty and `fork()` succeeds. -/
theorem executeCommand_single_trace (sys : SysOutcome) (command command1 : List Char)
    (should_wait : Bool) (hascii : command ≠ "ascii".toList)
    (hsplit : splitPipeline command = Pipeline.Single command1)
    (hargs : tokenizeCommand command1 ≠ []) (hfork : sys.fork1Ok = true) :
    executeCommand sys command should_wait =
      Action.fork Pid.pid (singleChild (resolveRedirection (tokenizeCommand command1))) ::
        (if should_wait then [Action.waitpid Pid.pid] else []) := by
  unfold executeCommand
  rw [if_neg hascii, hsplit]
  cases htok : tokenizeCommand command1 with
  | nil => exact absurd htok hargs
  | cons a rest =>
    simp only [hfork, Bool.not_true, Bool.false_eq_true, if_false, List.singleton_append]
    rw [htok]

/-- A text that is not split and tokenizes to nothing creates no process. -/
theorem executeCommand_no_token (sys : SysOutcome) (command command1 : List Char)
    (should_wait : Bool) (hsplit : splitPipeline command = Pipeline.Single command1)
    (hargs : tokenizeCommand command1 = []) :
    executeCommand sys command should_wait = [] := by
  unfold executeCommand
  by_cases hascii : command = "ascii".toList
  · rw [if_pos hascii]
  · rw [if_neg hascii, hsplit]
    simp only [hargs]

/-- C12, the code on `"< in.txt"`: the text is not piped and tokenizes to
`["<","in.txt"]`, so the test of `args[0]` passes; the scan then overwrites
`args[0]` with NULL, the vector that is executed is empty, and a child is
still forked, which opens `in.txt` and calls `execvp(NULL, args)`. -/
theorem executeCommand_forks_emptied_vector :
    splitPipeline "< in.txt".toList = Pipeline.Single "< in.txt".toList ∧
    tokenizeCommand "< in.txt".toList = ["<".toList, "in.txt".toList] ∧
    execArgv (resolveRedirection ["<".toList, "in.txt".toList]).args = [] ∧
    argAt (resolveRedirection ["<".toList, "in.txt".toList]).args 0 = none ∧
    executeCommand ⟨true, true, true⟩ "< in.txt".toList true =
      [Action.fork Pid.pid [ChildStep.openInput "in.txt".toList, ChildStep.execvp none []],
       Action.waitpid Pid.pid] := by
  decide

/-- C13: for every text that splits as `Piped` and either value of
`should_wait`, when `pipe()` and both calls of `fork()` succeed the parent
makes one `pipe()`, forks two children, and waits on `pid1`, then on `pid2`,
and on nothing else. -/
theorem executeCommand_piped_two_children (sys : SysOutcome)
    (command leftCommand rightCommand : List Char) (should_wait : Bool)
    (hsplit : splitPipeline command = Pipeline.Piped leftCommand rightCommand)
    (hpipe : sys.pipeOk = true) (hfork1 : sys.fork1Ok = true) (hfork2 : sys.fork2Ok = true) :
    (executeCommand sys command should_wait).count Action.pipe = 1 ∧
    (executeCommand sys command should_wait).filter Action.isFork =
      [Action.fork Pid.pid1 ([ChildStep.close PipeEnd.RD, ChildStep.dup2Stdout PipeEnd.WR,
         ChildStep.close PipeEnd.WR] ++ pipeChildExec leftCommand),
       Action.fork Pid.pid2 ([ChildStep.close PipeEnd.WR, ChildStep.dup2Stdin PipeEnd.RD,
         ChildStep.close PipeEnd.RD] ++ pipeChildExec rightCommand)] ∧
    (executeCommand sys command should_wait).filter Action.isWaitpid =
      [Action.waitpid Pid.pid1, Action.waitpid Pid.pid2] ∧
    (executeCommand sys command should_wait).getLast? = some (Action.waitpid Pid.pid2) ∧
    executeCommand sys command true = executeCommand sys command false := by
  rw [executeCommand_piped_trace sys command leftCommand rightCommand should_wait hsplit hpipe
    hfork1 hfork2,
    executeCommand_piped_trace sys command leftCommand rightCommand true hsplit hpipe
    hfork1 hfork2,
    executeCommand_piped_trace sys command leftCommand rightCommand false hsplit hpipe
    hfork1 hfork2]
  refine ⟨?_, ?_, ?_, ?_, rfl⟩
  · simp [List.count_cons]
  · simp [List.filter, Action.isFork]
  · simp [List.filter, Action.isWaitpid]
  · simp

/-- C13 on the segment of `"ls | wc &"`, whose background flag is set: one
pipe, two children, both waited for. -/
theorem executeCommand_piped_two_children_witness :
    (segmentLine "ls | wc &".toList).head? =
      some { text := "ls | wc ".toList, background := true } ∧
    (executeCommand ⟨true, true, true⟩ "ls | wc ".toList false).count Action.pipe = 1 ∧
    (executeCommand ⟨true, true, true⟩ "ls | wc ".toList false).filter Action.isWaitpid =
      [Action.waitpid Pid.pid1, Action.waitpid Pid.pid2] :=
  ⟨by decide,
   (executeCommand_piped_two_children ⟨true, true, true⟩ "ls | wc ".toList "ls ".toList
      "wc ".toList false (by decide) rfl rfl rfl).1,
   (executeCommand_piped_two_children ⟨true, true, true⟩ "ls | wc ".toList "ls ".toList
      "wc ".toList false (by decide) rfl rfl rfl).2.2.1⟩

/-- C14, the code on `"ls | wc"`: the parent closes the write end, waits on
`pid1`, and only then closes the read end; the read end is still open while
the parent is blocked on the left child. -/
theorem executeCommand_read_end_closed_after_wait :
    executeCommand ⟨true, true, true⟩ "ls | wc".toList true =
      [Action.pipe,
       Action.fork Pid.pid1 [ChildStep.close PipeEnd.RD, ChildStep.dup2Stdout PipeEnd.WR,
         ChildStep.close PipeEnd.WR, ChildStep.execvp (some "ls".toList) ["ls".toList]],
       Action.fork Pid.pid2 [ChildStep.close PipeEnd.WR, ChildStep.dup2Stdin PipeEnd.RD,
         ChildStep.close PipeEnd.RD, ChildStep.execvp (some "wc".toList) ["wc".toList]],
       Action.close PipeEnd.WR, Action.waitpid Pid.pid1,
       Action.close PipeEnd.RD, Action.waitpid Pid.pid2] ∧
    (executeCommand ⟨true, true, true⟩ "ls | wc".toList true).indexOf
        (Action.waitpid Pid.pid1) = 4 ∧
    (executeCommand ⟨true, true, true⟩ "ls | wc".toList true).indexOf
        (Action.close PipeEnd.RD) = 5 := by
  decide

/-- C17: for a segment that is not piped, is not the reserved command, has a
non-empty tokenized vector and whose `fork()` succeeds, the loop of
`processLine` calls `executeCommand` with `should_wait` the negation of the
background flag: with the flag clear the parent forks the child and waits on
it before the next segment is executed; with the flag set it forks the child,
makes no `waitpid`, and goes on after `usleep`. -/
theorem executeAll_single_wait (sys : Nat → SysOutcome) (i : Nat) (seg : Segment)
    (rest : List Segment) (command1 : List Char) (hascii : seg.text ≠ "ascii".toList)
    (hsplit : splitPipeline seg.text = Pipeline.Single command1)
    (hargs : tokenizeCommand command1 ≠ []) (hfork : (sys i).fork1Ok = true) :
    executeAll sys i (seg :: rest) =
      (if seg.background then
        [Action.fork Pid.pid (singleChild (resolveRedirection (tokenizeCommand command1))),
         Action.usleep 10000]
      else
        [Action.fork Pid.pid (singleChild (resolveRedirection (tokenizeCommand command1))),
         Action.waitpid Pid.pid]) ++ executeAll sys (i + 1) rest := by
  rw [executeAll, executeCommand_single_trace (sys i) seg.text command1 (!seg.background) hascii
    hsplit hargs hfork]
  cases seg.background <;> simp

/-- C17 on the two segments of `"ls & whoami ;"`: `ls` is forked and not
waited for, `whoami` is forked and waited for. -/
theorem executeAll_single_wait_witness :
    executeAll (fun _ => ⟨true, true, true⟩) 0
        [{ text := "ls ".toList, background := true },
         { text := "whoami".toList, background := false }] =
      [Action.fork Pid.pid [ChildStep.execvp (some "ls".toList) ["ls".toList]],
       Action.usleep 10000,
       Action.fork Pid.pid [ChildStep.execvp (some "whoami".toList) ["whoami".toList]],
       Action.waitpid Pid.pid] := by
  rw [executeAll_single_wait (fun _ => ⟨true, true, true⟩) 0
    { text := "ls ".toList, background := true }
    [{ text := "whoami".toList, background := false }] "ls ".toList (by decide) (by decide)
    (by decide) rfl]
  decide

/-! ## The right-hand text of a pipeline -/

/-- C16, counterexample: on `"ls |\twc"` the split is `Piped` and the
right-hand text begins with the tab. -/
theorem splitPipeline_right_keeps_tab :
    splitPipeline "ls |\twc".toList = Pipeline.Piped "ls ".toList "\twc".toList ∧
    "\twc".toList.head? = some '\t' := by
  decide

/-- C16, amended: whenever the pipe split yields `Piped(left, right)`, the
text `right` does not begin with a space; the loop that trims it tests the
space only, so it may begin with a tab. -/
theorem splitPipeline_right_no_leading_space (command leftCommand rightCommand : List Char)
    (h : splitPipeline command = Pipeline.Piped leftCommand rightCommand) :
    rightCommand.head? ≠ some ' ' := by
  have key : ∀ t : List Char, (t.dropWhile (fun c => decide (c = ' '))).head? ≠ some ' ' := by
    intro t hh
    have h1 := List.head?_dropWhile_not (fun c => decide (c = ' ')) t
    rw [hh] at h1
    simp at h1
  unfold splitPipeline at h
  split at h
  · split at h
    · simp only [Pipeline.Piped.injEq] at h
      rw [← h.2]
      exact key _
    · exact Pipeline.noConfusion h
  · split at h
    · simp only [Pipeline.Piped.injEq] at h
      rw [← h.2]
      exact key _
    · exact Pipeline.noConfusion h

/-- C16 as amended, at the text `"ls |   wc -l"`. -/
theorem splitPipeline_right_no_leading_space_witness :
    splitPipeline "ls |   wc -l".toList = Pipeline.Piped "ls ".toList "wc -l".toList ∧
    "wc -l".toList.head? ≠ some ' ' :=
  ⟨by decide,
   splitPipeline_right_no_leading_space "ls |   wc -l".toList "ls ".toList "wc -l".toList
     (by decide)⟩

/-! ## The tokens of `tokenizeCommand` -/

/-- The token returned by `strtok_r` holds no delimiter; it and the text left
at the save pointer are made of characters of the text scanned. -/
theorem strtok_r_chars (delim : List Char) (s tok rest : List Char)
    (h : strtok_r delim s = (some tok, rest)) :
    (∀ c ∈ tok, isDelim delim c = false ∧ c ∈ s) ∧ (∀ c ∈ rest, c ∈ s) := by
  unfold strtok_r at h
  cases hd : s.dropWhile (isDelim delim) with
  | nil => simp [hd] at h
  | cons c cs =>
    rw [hd] at h
    simp only [Prod.mk.injEq, Option.some.injEq] at h
    obtain ⟨h1, h2⟩ := h
    have hsub : ∀ x ∈ c :: cs, x ∈ s := by
      intro x hx
      rw [← hd] at hx
      exact (List.dropWhile_suffix _).subset hx
    refine ⟨?_, ?_⟩
    · intro x hx
      rw [← h1] at hx
      refine ⟨?_, hsub x ((List.takeWhile_prefix _).subset hx)⟩
      have := List.mem_takeWhile_imp hx
      simpa using this
    · intro x hx
      rw [← h2] at hx
      exact hsub x ((List.dropWhile_suffix _).subset ((List.tail_suffix _).subset hx))

/-- Every maximal run is non-empty, holds no delimiter and is made of
characters of the text. -/
theorem mem_maximalRuns (delim : List Char) :
    ∀ (n : Nat) (s : List Char), s.length ≤ n → ∀ t ∈ maximalRuns delim s,
      t ≠ [] ∧ ∀ c ∈ t, isDelim delim c = false ∧ c ∈ s := by
  intro n
  induction n with
  | zero =>
    intro s hs t ht
    have : s = [] := List.length_eq_zero.mp (Nat.le_zero.mp hs)
    subst this
    simp [maximalRuns_nil] at ht
  | succ n ih =>
    intro s hs t ht
    rw [strtok_r_runs delim s] at ht
    cases h : strtok_r delim s with
    | mk tok rest =>
      cases tok with
      | none => simp [h] at ht
      | some tok =>
        simp only [h] at ht
        obtain ⟨hne, hcase⟩ := strtok_r_length delim s tok rest h
        obtain ⟨htok, hrest⟩ := strtok_r_chars delim s tok rest h
        have htl : 0 < tok.length := List.length_pos.mpr hne
        rcases List.mem_cons.mp ht with h1 | h1
        · subst h1
          exact ⟨hne, htok⟩
        · have hlen : rest.length ≤ n := by
            rcases hcase with ⟨hr, _⟩ | hl
            · subst hr; simp
            · omega
          obtain ⟨h2, h3⟩ := ih rest hlen t h1
          exact ⟨h2, fun c hc => ⟨(h3 c hc).1, hrest c (h3 c hc).2⟩⟩

/-- C18: for every command string, every argument stored by `tokenizeCommand`
is non-empty, holds no space, tab or newline, and is not `"&"`. -/
theorem tokenizeCommand_args_clean (s : List Char) (t : List Char)
    (ht : t ∈ tokenizeCommand s) :
    t ≠ [] ∧ ' ' ∉ t ∧ '\t' ∉ t ∧ '\n' ∉ t ∧ t ≠ "&".toList := by
  rw [tokenizeCommand_eq_take] at ht
  have h1 : t ∈ expectedTokens s := List.mem_of_mem_take ht
  unfold expectedTokens at h1
  obtain ⟨hrun, hamp⟩ := List.mem_filter.mp h1
  obtain ⟨hne, hchars⟩ := mem_maximalRuns tokenDelims s.length s (Nat.le_refl _) t hrun
  refine ⟨hne, ?_, ?_, ?_, by simpa using hamp⟩
  · intro hc
    have := (hchars _ hc).1
    simp [isDelim, tokenDelims] at this
  · intro hc
    have := (hchars _ hc).1
    simp [isDelim, tokenDelims] at this
  · intro hc
    have := (hchars _ hc).1
    simp [isDelim, tokenDelims] at this

/-- C18 at the command `" a&\t&  b c\n"`: the argument `a&` is stored and is
clean. -/
theorem tokenizeCommand_args_clean_witness :
    tokenizeCommand " a&\t&  b c\n".toList = ["a&".toList, "b".toList, "c".toList] ∧
    ("a&".toList ≠ [] ∧ ' ' ∉ "a&".toList ∧ '\t' ∉ "a&".toList ∧ '\n' ∉ "a&".toList ∧
      "a&".toList ≠ "&".toList) :=
  ⟨by decide, tokenizeCommand_args_clean " a&\t&  b c\n".toList "a&".toList (by decide)⟩

/-! ## Bounds of the `args[]` array -/

/-- `tokenizeCommand` stores at most `MAXLINE / 2` arguments, whatever the
length of the command. -/
theorem tokenizeCommand_length_le (s : List Char) :
    (tokenizeCommand s).length ≤ MAXLINE / 2 := by
  rw [tokenizeCommand_eq_take]
  exact List.length_take_le _ _

/-- The redirection scan touches no index beyond the NULL terminator, which
stands at the index equal to the number of stored arguments. -/
theorem redirectionAccesses_le :
    ∀ (rest : List (List Char)) (fuel : Nat) (done : List (Option (List Char)))
      (inp out : Option (List Char)),
      ∀ idx ∈ redirectionAccesses fuel done.length
          { args := done ++ rest.map some, input_file := inp, output_file := out },
        idx ≤ done.length + rest.length := by
  intro rest
  induction rest with
  | nil =>
    intro fuel done inp out idx hidx
    cases fuel with
    | zero => simp [redirectionAccesses] at hidx
    | succ fuel =>
      have hnone : argAt done done.length = none := by
        unfold argAt
        exact List.getD_eq_default _ _ (Nat.le_refl _)
      simp only [redirectionAccesses, List.map_nil, List.append_nil, hnone,
        List.mem_singleton] at hidx
      omega
  | cons a rest ih =>
    intro fuel done inp out idx hidx
    cases fuel with
    | zero => simp [redirectionAccesses] at hidx
    | succ fuel =>
      have hlen1 : (done ++ [none]).length = done.length + 1 := by simp
      have hlen2 : (done ++ [some a]).length = done.length + 1 := by simp
      have hkeep : done ++ some a :: rest.map some = (done ++ [some a]) ++ rest.map some := by
        simp
      rw [redirectionAccesses] at hidx
      simp only [List.map_cons, argAt_here, argAt_next, set_here, List.length_cons] at hidx
      rw [List.length_cons]
      split_ifs at hidx
      · rcases List.mem_cons.mp hidx with h | h
        · omega
        · rcases List.mem_cons.mp h with h | h
          · omega
          · rw [← hlen1] at h
            have := ih _ _ _ _ _ h
            rw [hlen1] at this
            omega
      · rcases List.mem_cons.mp hidx with h | h
        · omega
        · rcases List.mem_cons.mp h with h | h
          · omega
          · rw [← hlen1] at h
            have := ih _ _ _ _ _ h
            rw [hlen1] at this
            omega
      · rcases List.mem_cons.mp hidx with h | h
        · omega
        · rcases List.mem_cons.mp h with h | h
          · omega
          · rw [hkeep, ← hlen2] at h
            have := ih _ _ _ _ _ h
            rw [hlen2] at this
            omega
      · rcases List.mem_cons.mp hidx with h | h
        · omega
        · rw [hkeep, ← hlen2] at h
          have := ih _ _ _ _ _ h
          rw [hlen2] at this
          omega

/-- With one unit of fuel per argument and one more, the scan ends by reading
the NULL terminator. -/
theorem redirectionAccesses_terminator :
    ∀ (rest : List (List Char)) (fuel : Nat) (done : List (Option (List Char)))
      (inp out : Option (List Char)), rest.length < fuel →
      done.length + rest.length ∈ redirectionAccesses fuel done.length
          { args := done ++ rest.map some, input_file := inp, output_file := out } := by
  intro rest
  induction rest with
  | nil =>
    intro fuel done inp out hfuel
    cases fuel with
    | zero => simp at hfuel
    | succ fuel =>
      have hnone : argAt done done.length = none := by
        unfold argAt
        exact List.getD_eq_default _ _ (Nat.le_refl _)
      simp [redirectionAccesses, hnone]
  | cons a rest ih =>
    intro fuel done inp out hfuel
    cases fuel with
    | zero => simp at hfuel
    | succ fuel =>
      have hf : rest.length < fuel := by simpa using hfuel
      have hlen1 : (done ++ [none]).length = done.length + 1 := by simp
      have hlen2 : (done ++ [some a]).length = done.length + 1 := by simp
      have hkeep : done ++ some a :: rest.map some = (done ++ [some a]) ++ rest.map some := by
        simp
      have e1 : done.length + (rest.length + 1) = (done ++ [none]).length + rest.length := by
        rw [hlen1]; omega
      have e2 : done.length + (rest.length + 1) = (done ++ [some a]).length + rest.length := by
        rw [hlen2]; omega
      rw [redirectionAccesses]
      simp only [List.map_cons, argAt_here, argAt_next, set_here, List.length_cons]
      split_ifs
      · refine List.mem_cons_of_mem _ (List.mem_cons_of_mem _ ?_)
        rw [e1, ← hlen1]
        exact ih _ _ _ _ hf
      · refine List.mem_cons_of_mem _ (List.mem_cons_of_mem _ ?_)
        rw [e1, ← hlen1]
        exact ih _ _ _ _ hf
      · refine List.mem_cons_of_mem _ (List.mem_cons_of_mem _ ?_)
        rw [e2, hkeep, ← hlen2]
        exact ih _ _ _ _ hf
      · refine List.mem_cons_of_mem _ ?_
        rw [e2, hkeep, ← hlen2]
        exact ih _ _ _ _ hf

/-- C19: for a command string of any length, `tokenizeCommand` stores at most
`MAXLINE / 2` arguments, so the NULL terminator is written at an index of at
most `MAXLINE / 2`; the redirection scan on the stored vector reads up to that
terminator and touches no index beyond it, its reads of `args[i + 1]`
included, so every index is below the `MAXLINE / 2 + 1` entries of the
array. -/
theorem tokenizeCommand_args_in_bounds (s : List Char) :
    (tokenizeCommand s).length ≤ MAXLINE / 2 ∧
    (tokenizeCommand s).length ∈
      redirectionAccesses ((tokenizeCommand s).length + 1) 0
        { args := (tokenizeCommand s).map some, input_file := none, output_file := none } ∧
    ∀ idx ∈ redirectionAccesses ((tokenizeCommand s).length + 1) 0
        { args := (tokenizeCommand s).map some, input_file := none, output_file := none },
      idx ≤ (tokenizeCommand s).length ∧ idx < MAXLINE / 2 + 1 := by
  have hlen := tokenizeCommand_length_le s
  refine ⟨hlen, ?_, ?_⟩
  · have := redirectionAccesses_terminator (tokenizeCommand s) ((tokenizeCommand s).length + 1)
      [] none none (Nat.lt_succ_self _)
    simpa using this
  · intro idx hidx
    have := redirectionAccesses_le (tokenizeCommand s) ((tokenizeCommand s).length + 1)
      [] none none idx (by simpa using hidx)
    simp only [List.length_nil, Nat.zero_add] at this
    omega

/-! ## Bounds of `commands[]` and `background_flags[]` -/

theorem pieceSegments_length_le (cmd0 : List Char) : (pieceSegments cmd0).length ≤ 2 := by
  unfold pieceSegments
  simp only
  split_ifs <;> simp

theorem appendPieces_length_le :
    ∀ (pieces : List (List Char)) (segs : List Segment),
      (appendPieces pieces segs).length ≤ segs.length + 2 * pieces.length := by
  intro pieces
  induction pieces with
  | nil => intro segs; simp [appendPieces]
  | cons piece rest ih =>
    intro segs
    rw [appendPieces]
    split_ifs
    · have h1 := ih (segs ++ pieceSegments piece)
      have h2 := pieceSegments_length_le piece
      simp only [List.length_append, List.length_cons] at h1 ⊢
      omega
    · simp only [List.length_cons]
      omega

/-- A line of `n` characters gives at most `n + 1` segments. -/
theorem segmentLine_length_le (line : List Char) :
    (segmentLine line).length ≤ line.length + 1 := by
  rw [segmentLine_eq]
  have h1 := appendPieces_length_le (maximalRuns stmtDelims line) []
  have h2 := maximalRuns_length stmtDelims line.length line (Nat.le_refl _)
  simp only [List.length_nil, Nat.zero_add] at h1
  omega

/-- The history slot holds a text shorter than `MAXLINE` after any sequence of
lines shorter than `MAXLINE`. -/
theorem slotAfter_length (calls : List ((Nat → SysOutcome) × List Char))
    (hcalls : ∀ call ∈ calls, call.2.length < MAXLINE) :
    ∀ slot : List Char, slot.length < MAXLINE → (slotAfter slot calls).length < MAXLINE := by
  induction calls with
  | nil => intro slot h; exact h
  | cons call rest ih =>
    intro slot hslot
    rw [slotAfter]
    apply ih (fun c hc => hcalls c (List.mem_cons_of_mem _ hc))
    by_cases hl : call.2 = "!!".toList
    · rw [hl, processLine_of_recall]
      split_ifs <;> exact hslot
    · rw [processLine_of_ne _ _ _ hl]
      exact hcalls call (List.mem_cons_self _ _)

/-- C20: for every input line shorter than `MAXLINE` characters, with the
history slot holding a text shorter than `MAXLINE` (the capacity of
`lastCommand`, kept by every sequence of such lines from the empty slot),
`processLine` stores at most `MAXLINE` segments, so every entry of
`commands[]` and `background_flags[]` that is written has an index below
`MAXLINE`, although one iteration can store two segments. -/
theorem processLine_segments_in_bounds (sys : Nat → SysOutcome) (lastCommand line : List Char)
    (hline : line.length < MAXLINE) (hslot : lastCommand.length < MAXLINE) :
    (processLine sys lastCommand line).commands.length ≤ MAXLINE ∧
    (∀ calls : List ((Nat → SysOutcome) × List Char),
      (∀ call ∈ calls, call.2.length < MAXLINE) →
      (processLine sys (slotAfter [] calls) line).commands.length ≤ MAXLINE) := by
  have key : ∀ slot : List Char, slot.length < MAXLINE →
      (processLine sys slot line).commands.length ≤ MAXLINE := by
    intro slot hs
    by_cases hl : line = "!!".toList
    · rw [hl, processLine_of_recall]
      split_ifs
      · simp
      · have := segmentLine_length_le slot
        simp only
        omega
    · rw [processLine_of_ne _ _ _ hl]
      have := segmentLine_length_le line
      simp only
      omega
  refine ⟨key lastCommand hslot, ?_⟩
  intro calls hcalls
  exact key _ (slotAfter_length calls hcalls [] (by decide))

/-- C20 on the line `"a&b;c&d"`, where each of the two iterations stores two
segments. -/
theorem processLine_segments_in_bounds_witness :
    (processLine (fun _ => ⟨true, true, true⟩) [] "a&b;c&d".toList).commands.length = 4 ∧
    (processLine (fun _ => ⟨true, true, true⟩) [] "a&b;c&d".toList).commands.length ≤ MAXLINE :=
  ⟨by decide,
   (processLine_segments_in_bounds (fun _ => ⟨true, true, true⟩) [] "a&b;c&d".toList
     (by decide) (by decide)).1⟩

/-! ## Lines without `&` -/

theorem rdropWhile_cons_of_neg (p : Char → Bool) (c : Char) (hc : ¬ p c = true) :
    ∀ cs : List Char, (c :: cs).rdropWhile p = c :: cs.rdropWhile p := by
  intro cs
  induction cs using List.reverseRecOn with
  | nil => simp [List.rdropWhile_singleton, hc]
  | append_singleton cs x ih =>
    rw [← List.cons_append, List.rdropWhile_concat, List.rdropWhile_concat, ih]
    split_ifs <;> simp

/-- The two trimming loops of `processLine` remove the leading and the
trailing spaces and tabs. -/
theorem trimTrailing_trimLeading (t : List Char) :
    trimTrailing (trimLeading t) = trimBlanks t := by
  unfold trimLeading trimBlanks
  cases h : t.dropWhile isBlank with
  | nil => simp [trimTrailing]
  | cons c cs =>
    have hc : ¬ isBlank c = true := by
      have h1 := List.head_dropWhile_not isBlank t (by rw [h]; exact List.cons_ne_nil _ _)
      simpa [h] using h1
    rw [trimTrailing, rdropWhile_cons_of_neg isBlank c hc]

theorem trimBlanks_subset (t : List Char) : ∀ c ∈ trimBlanks t, c ∈ t := by
  intro c hc
  unfold trimBlanks at hc
  exact (List.dropWhile_suffix _).subset ((List.rdropWhile_prefix _ _).subset hc)

/-- A piece without `&` is stored trimmed with the flag clear, unless it is
empty after trimming. -/
theorem pieceSegments_no_ampersand (cmd0 : List Char) (h : '&' ∉ cmd0) :
    pieceSegments cmd0 =
      if trimBlanks cmd0 ≠ [] then [{ text := trimBlanks cmd0, background := false }] else [] := by
  have hamp : '&' ∉ trimBlanks cmd0 := fun hc => h (trimBlanks_subset cmd0 _ hc)
  unfold pieceSegments
  simp only [trimTrailing_trimLeading, hamp, if_false]

/-- The segments of pieces without `&`: the trimmed non-empty pieces, up to
the capacity `MAXLINE`. -/
theorem appendPieces_no_ampersand :
    ∀ (pieces : List (List Char)) (segs : List Segment), (∀ p ∈ pieces, '&' ∉ p) →
      segs.length ≤ MAXLINE →
      appendPieces pieces segs =
        segs ++ ((((pieces.map trimBlanks).filter (fun t => t ≠ [])).map
          (fun t => ({ text := t, background := false } : Segment))).take
            (MAXLINE - segs.length)) := by
  intro pieces
  induction pieces with
  | nil => intro segs _ _; simp [appendPieces]
  | cons piece rest ih =>
    intro segs hp hlen
    have hrest : ∀ p ∈ rest, '&' ∉ p := fun p hm => hp p (List.mem_cons_of_mem _ hm)
    rw [appendPieces]
    by_cases hcap : segs.length < MAXLINE
    · rw [if_pos hcap, pieceSegments_no_ampersand piece (hp piece (List.mem_cons_self _ _))]
      by_cases hne : trimBlanks piece = []
      · simp only [hne, ne_eq, not_true_eq_false, if_false, List.append_nil, List.map_cons,
          decide_False, Bool.false_eq_true, not_false_eq_true, List.filter_cons_of_neg]
        exact ih segs hrest hlen
      · have hpos : MAXLINE - segs.length = (MAXLINE - (segs.length + 1)) + 1 := by omega
        have hlen1 : (segs ++ [({ text := trimBlanks piece, background := false } :
            Segment)]).length ≤ MAXLINE := by
          simp only [List.length_append, List.length_singleton]
          omega
        rw [if_pos hne, ih _ hrest hlen1]
        simp only [List.length_append, List.length_singleton, List.map_cons, ne_eq, hne,
          not_false_eq_true, decide_True, List.filter_cons_of_pos]
        rw [hpos, List.take_succ_cons]
        simp
    · rw [if_neg hcap]
      have : MAXLINE - segs.length = 0 := by omega
      simp [this]

theorem isDelim_stmt : isDelim stmtDelims = fun c => decide (c = ';') := by
  funext c
  simp [isDelim, stmtDelims]

theorem filter_map_trimBlanks (l : List (List Char)) :
    ((l.filter (fun t => t ≠ [])).map trimBlanks).filter (fun t => t ≠ []) =
      (l.map trimBlanks).filter (fun t => t ≠ []) := by
  induction l with
  | nil => rfl
  | cons a l ih =>
    by_cases ha : a = []
    · subst ha
      have ht : trimBlanks [] = [] := rfl
      simp only [ne_eq, not_true_eq_false, decide_False, Bool.false_eq_true, not_false_eq_true,
        List.filter_cons_of_neg, List.map_cons, ht]
      exact ih
    · simp only [ne_eq, ha, not_false_eq_true, decide_True, List.filter_cons_of_pos,
        List.map_cons]
      by_cases hb : trimBlanks a = []
      · simp only [hb, ne_eq, not_true_eq_false, decide_False, Bool.false_eq_true,
          not_false_eq_true, List.filter_cons_of_neg]
        exact ih
      · simp only [ne_eq, hb, not_false_eq_true, decide_True, List.filter_cons_of_pos]
        rw [← ih]

/-- The segments of a line without `&`, whatever its length. -/
theorem segmentLine_no_ampersand (line : List Char) (hamp : '&' ∉ line) :
    segmentLine line =
      ((statementPieces line).take MAXLINE).map
        (fun t => ({ text := t, background := false } : Segment)) := by
  rw [segmentLine_eq, appendPieces_no_ampersand _ [] ?_ (Nat.zero_le _)]
  · simp only [List.nil_append, List.length_nil, Nat.sub_zero, List.map_take]
    unfold statementPieces maximalRuns
    rw [filter_map_trimBlanks, isDelim_stmt]
  · intro p hp hc
    exact hamp ((mem_maximalRuns stmtDelims line.length line (Nat.le_refl _) p hp).2 _ hc).2

theorem statementPieces_length (line : List Char) :
    2 * (statementPieces line).length ≤ line.length + 1 := by
  have h1 := maximalRuns_length stmtDelims line.length line (Nat.le_refl _)
  have h2 : (statementPieces line).length ≤ (maximalRuns stmtDelims line).length := by
    unfold statementPieces
    rw [← isDelim_stmt, ← filter_map_trimBlanks]
    unfold maximalRuns
    exact (List.length_filter_le _ _).trans (List.length_map _ _).le
  omega

set_option maxRecDepth 100000 in
/-- C15, counterexample: a line of 81 pieces `a;` holds no `&` and is not
`"!!"`; it has 81 trimmed non-empty pieces, and `processLine` stores 80
segments, since the loop stops once `cmd_count` reaches `MAXLINE`. -/
theorem processLine_stops_at_capacity :
    '&' ∉ (List.replicate 81 "a;".toList).flatten ∧
    (List.replicate 81 "a;".toList).flatten ≠ "!!".toList ∧
    (statementPieces (List.replicate 81 "a;".toList).flatten).length = 81 ∧
    (processLine (fun _ => ⟨true, true, true⟩) []
      (List.replicate 81 "a;".toList).flatten).commands.length = 80 := by
  decide

/-- C15, amended: for every line other than `"!!"` that holds no `&`, the
segments stored by `processLine` are exactly the first `MAXLINE` of the pieces
obtained by splitting the line at `;`, each trimmed of leading and trailing
spaces and tabs, the pieces that are empty after trimming being discarded, in
their order and all with the flag clear; for a line shorter than
`2 * MAXLINE` characters, and so for every line shorter than `MAXLINE`, these
are all the pieces. -/
theorem processLine_no_ampersand (sys : Nat → SysOutcome) (slot line : List Char)
    (hline : line ≠ "!!".toList) (hamp : '&' ∉ line) :
    (processLine sys slot line).commands =
      ((statementPieces line).take MAXLINE).map
        (fun t => ({ text := t, background := false } : Segment)) ∧
    (line.length < 2 * MAXLINE →
      (processLine sys slot line).commands =
        (statementPieces line).map
          (fun t => ({ text := t, background := false } : Segment))) := by
  rw [processLine_of_ne sys slot line hline]
  refine ⟨segmentLine_no_ampersand line hamp, ?_⟩
  intro hlen
  have h1 := statementPieces_length line
  have h2 : (statementPieces line).length ≤ MAXLINE := by omega
  simp only [segmentLine_no_ampersand line hamp, List.take_of_length_le h2]

/-- C15 as amended, at the line `" ls -al ;; \tcat < junk.txt\t;  ; x"`. -/
theorem processLine_no_ampersand_witness :
    (processLine (fun _ => ⟨true, true, true⟩) []
        " ls -al ;; \tcat < junk.txt\t;  ; x".toList).commands =
      [{ text := "ls -al".toList, background := false },
       { text := "cat < junk.txt".toList, background := false },
       { text := "x".toList, background := false }] := by
  rw [(processLine_no_ampersand (fun _ => ⟨true, true, true⟩) []
    " ls -al ;; \tcat < junk.txt\t;  ; x".toList (by decide) (by decide)).2 (by decide)]
  decide

end Shell
